import Mathlib

/-!
Verification of the `tubos_xtractor` parts-catalog extraction and pricing
pipeline.  Python strings are embedded as `List Char`; each definition is a
direct transcription of the corresponding function in the repository
(`src/pdf_extractor.py`, `src/price_fetcher.py`, `src/data_manager.py`,
`src/utils.py`, `config/settings.py`, `config/schemas.py`).  Character
classes follow Python's `re` semantics restricted to ASCII text, which is
the alphabet of every identifier and keyword the program manipulates.
-/

namespace Xtractor

/-- ASCII decimal digit, Python regex `\d` on ASCII text. -/
def isDigitCh (c : Char) : Bool := 48 ≤ c.toNat && c.toNat ≤ 57

/-- ASCII uppercase letter, the regex class `[A-Z]`. -/
def isUpperCh (c : Char) : Bool := 65 ≤ c.toNat && c.toNat ≤ 90

/-- ASCII lowercase letter. -/
def isLowerCh (c : Char) : Bool := 97 ≤ c.toNat && c.toNat ≤ 122

/-- Python regex word character `\w` on ASCII text: letter, digit or underscore. -/
def isWordCh (c : Char) : Bool := isUpperCh c || isLowerCh c || isDigitCh c || c == '_'

/-- Python `str.isspace` characters relevant to `str.strip()` on ASCII text. -/
def isSpaceCh (c : Char) : Bool :=
  c == ' ' || c == '\t' || c == '\n' || c == '\r' || c == '\x0b' || c == '\x0c'

/-- Python `str.strip()`: remove leading and trailing whitespace. -/
def pyStrip (s : List Char) : List Char :=
  ((s.dropWhile isSpaceCh).reverse.dropWhile isSpaceCh).reverse

/-- Python `str.lower()` on ASCII text. -/
def lowerCh (c : Char) : Char :=
  if isUpperCh c then Char.ofNat (c.toNat + 32) else c

/-- Python `str.lower()` applied character-wise. -/
def pyLower (s : List Char) : List Char := s.map lowerCh

/-!
## IdentifierMatcher: `PDF_PART_NUMBER_PATTERNS` and `validate_part_number`

`config/settings.py` lists three search patterns, each wrapped in `\b` word
boundaries:

* `\b\d{4}-\d{3}\b`      (primary, e.g. `6000-487`)
* `\b\d{4}-\d{2}\b`      (secondary, e.g. `2015-05`)
* `\b[A-Z]\d{4}-\d{3}\b` (letter prefix, e.g. `A6000-487`)

`src/utils.py::validate_part_number` re-checks a candidate against the same
three shapes anchored with `^...$` after a minimum-length test.
-/

/-- The three part-number pattern rules of `PDF_PART_NUMBER_PATTERNS`. -/
inductive PatRule where
  | dddd_ddd
  | dddd_dd
  | letter_dddd_ddd
deriving DecidableEq

/-- Length of a match of each pattern rule. -/
def patLen : PatRule → Nat
  | .dddd_ddd => 8
  | .dddd_dd => 7
  | .letter_dddd_ddd => 9

/-- Index of the hyphen inside a match of each pattern rule. -/
def hyphenPos : PatRule → Nat
  | .dddd_ddd => 4
  | .dddd_dd => 4
  | .letter_dddd_ddd => 5

/-- Character class required at position `i` of a match of rule `k`. -/
def charRule (k : PatRule) (i : Nat) (c : Char) : Bool :=
  match k with
  | .dddd_ddd => if i = 4 then c == '-' else isDigitCh c
  | .dddd_dd => if i = 4 then c == '-' else isDigitCh c
  | .letter_dddd_ddd =>
      if i = 0 then isUpperCh c else if i = 5 then c == '-' else isDigitCh c

/-- Model of `l` is exactly the body of a match of rule `k` (length and per-position class). -/
def shapeMatch (k : PatRule) (l : List Char) : Bool :=
  l.length == patLen k &&
    (List.range (patLen k)).all fun i =>
      match l[i]? with
      | some c => charRule k i c
      | none => false

/-- The trailing `\b` of the search patterns: the text after the match starts
with a non-word character or is empty. -/
def boundaryEnd : List Char → Bool
  | [] => true
  | c :: _ => !isWordCh c

/-- The regex for rule `k` matches at the head of `s` (body shape plus the
trailing word boundary; the leading boundary is tracked by the scanner). -/
def matchesAt (k : PatRule) (s : List Char) : Bool :=
  shapeMatch k (s.take (patLen k)) && boundaryEnd (s.drop (patLen k))

/-- Model of `re.finditer` for rule `k`: scan left to right, emit non-overlapping
matches, resume after each match.  `prevW` records whether the character just
before the current position is a word character (the leading `\b`); every
pattern starts with a word character, so the boundary holds iff `!prevW`.
Fuel is the number of remaining scan steps; `re_finditer` supplies enough. -/
def scanFuel (k : PatRule) : Nat → Bool → List Char → List (List Char)
  | 0, _, _ => []
  | _ + 1, _, [] => []
  | fuel + 1, prevW, c :: cs =>
    if !prevW && matchesAt k (c :: cs) then
      (c :: cs).take (patLen k) :: scanFuel k fuel true ((c :: cs).drop (patLen k))
    else
      scanFuel k fuel (isWordCh c) cs

/-- Model of `re.finditer(pattern_k, text)`, as the list of matched substrings. -/
def re_finditer (k : PatRule) (text : List Char) : List (List Char) :=
  scanFuel k text.length false text

/-- Model of `PDF_PART_NUMBER_PATTERNS` from `config/settings.py`, in order. -/
def PDF_PART_NUMBER_PATTERNS : List PatRule :=
  [.dddd_ddd, .dddd_dd, .letter_dddd_ddd]

/-- Model of `re.match(r'^' + body + r'$', s)` for rule `k`: the whole string matches
the body, allowing the single trailing newline that `$` tolerates. -/
def anchoredMatch (k : PatRule) (s : List Char) : Bool :=
  shapeMatch k s ||
    (s.getLast? == some '\n' && shapeMatch k s.dropLast)

/-- Model of `src/utils.py::validate_part_number`. -/
def validate_part_number (s : List Char) : Bool :=
  if s.isEmpty || s.length < 7 then false
  else
    anchoredMatch .dddd_ddd s || anchoredMatch .dddd_dd s ||
      anchoredMatch .letter_dddd_ddd s

/-- The part-number candidates produced from one page's text by
`src/pdf_extractor.py::_extract_parts_from_page` (lines 94-118): for each
pattern, every `finditer` hit is stripped and kept only if
`validate_part_number` accepts it.  Each surviving candidate becomes the
`part_number` of one extracted record, so this is the identifier projection
of the page-level text extraction. -/
def extract_text_part_numbers (text : List Char) : List (List Char) :=
  (PDF_PART_NUMBER_PATTERNS.map fun k =>
    ((re_finditer k text).map pyStrip).filter validate_part_number).flatten

-- sanity checks (concrete behavior of the embedding)
example : re_finditer .dddd_ddd "x 6000-487 y".data = ["6000-487".data] := by decide
example : re_finditer .dddd_ddd "A6000-487".data = [] := by decide
example : re_finditer .letter_dddd_ddd "A6000-487".data = ["A6000-487".data] := by decide
example : validate_part_number "6000-487".data = true := by decide
example : validate_part_number "2015-05".data = true := by decide
example : validate_part_number "600-487".data = false := by decide
example : extract_text_part_numbers "12345-678".data = [] := by decide
example : validate_part_number "2345-678".data = true := by decide
example : extract_text_part_numbers "Item 6000-487 Pump".data = ["6000-487".data] := by
  decide

/-!
## Data model: `config/schemas.py`

`Part` carries the fields the claims touch; the Python dataclass's
`errors` list and free-form `metadata` dictionary are omitted (no claim and
no modelled operation reads them).  Wall-clock timestamps that the code
takes from `datetime.now()` are supplied by the environment of each
modelled operation.  Prices (Python floats holding parsed decimal strings)
are embedded as rationals.
-/

/-- Model of `PartStatus` from `config/schemas.py`. -/
inductive PartStatus where
  | extracted
  | price_pending
  | priced
  | price_failed
  | active
  | discontinued
deriving DecidableEq

/-- The `.value` string of each `PartStatus` member. -/
def statusValue : PartStatus → List Char
  | .extracted => "extracted".data
  | .price_pending => "price_pending".data
  | .priced => "priced".data
  | .price_failed => "price_failed".data
  | .active => "active".data
  | .discontinued => "discontinued".data

/-- Model of `PartStatus(value)`: the enum member with the given value, if any
(Python raises `ValueError` otherwise, modelled as `none`). -/
def statusOfValue (s : List Char) : Option PartStatus :=
  if s = "extracted".data then some .extracted
  else if s = "price_pending".data then some .price_pending
  else if s = "priced".data then some .priced
  else if s = "price_failed".data then some .price_failed
  else if s = "active".data then some .active
  else if s = "discontinued".data then some .discontinued
  else none

/-- Model of `ErrorType` from `config/schemas.py`. -/
inductive ErrorType where
  | pdf_parsing
  | part_not_found
  | network_error
  | validation_error
  | rate_limit
  | login_failed
  | unexpected
deriving DecidableEq

/-- A naive `datetime.datetime` value. -/
structure DateTime where
  year : Nat
  month : Nat
  day : Nat
  hour : Nat
  minute : Nat
  second : Nat
  microsecond : Nat
deriving DecidableEq

/-- Field ranges of a constructible Python `datetime`. -/
def DateTime.Valid (d : DateTime) : Prop :=
  1 ≤ d.year ∧ d.year ≤ 9999 ∧ 1 ≤ d.month ∧ d.month ≤ 12 ∧
    1 ≤ d.day ∧ d.day ≤ 31 ∧ d.hour ≤ 23 ∧ d.minute ≤ 59 ∧
    d.second ≤ 59 ∧ d.microsecond ≤ 999999

instance (d : DateTime) : Decidable d.Valid := by
  unfold DateTime.Valid; infer_instance

/-- The ASCII digit character for `n < 10`. -/
def digitCh (n : Nat) : Char := Char.ofNat (48 + n)

/-- Two-digit zero-padded decimal rendering (`%02d`). -/
def pad2 (n : Nat) : List Char := [digitCh (n / 10), digitCh (n % 10)]

/-- Four-digit zero-padded decimal rendering (`%04d`). -/
def pad4 (n : Nat) : List Char :=
  [digitCh (n / 1000), digitCh (n / 100 % 10), digitCh (n / 10 % 10), digitCh (n % 10)]

/-- Six-digit zero-padded decimal rendering (`%06d`). -/
def pad6 (n : Nat) : List Char :=
  [digitCh (n / 100000), digitCh (n / 10000 % 10), digitCh (n / 1000 % 10),
    digitCh (n / 100 % 10), digitCh (n / 10 % 10), digitCh (n % 10)]

/-- Model of `datetime.isoformat()` for a naive datetime:
`YYYY-MM-DDTHH:MM:SS` with `.ffffff` appended when the microsecond field is
non-zero. -/
def DateTime.isoformat (d : DateTime) : List Char :=
  pad4 d.year ++ ('-' :: (pad2 d.month ++ ('-' :: (pad2 d.day ++
    ('T' :: (pad2 d.hour ++ (':' :: (pad2 d.minute ++ (':' :: (pad2 d.second ++
      (if d.microsecond = 0 then [] else '.' :: pad6 d.microsecond)))))))))))

/-- Numeric value of one ASCII digit character. -/
def chDigit (c : Char) : Nat := c.toNat - 48

/-- Parse an exact two-digit field. -/
def parse2 : List Char → Option (Nat × List Char)
  | a :: b :: r =>
      if isDigitCh a && isDigitCh b then some (10 * chDigit a + chDigit b, r) else none
  | _ => none

/-- Parse an exact four-digit field. -/
def parse4 : List Char → Option (Nat × List Char)
  | a :: b :: c :: d :: r =>
      if isDigitCh a && isDigitCh b && isDigitCh c && isDigitCh d then
        some (1000 * chDigit a + 100 * chDigit b + 10 * chDigit c + chDigit d, r)
      else none
  | _ => none

/-- Parse an exact six-digit field. -/
def parse6 : List Char → Option (Nat × List Char)
  | a :: b :: c :: d :: e :: f :: r =>
      if isDigitCh a && isDigitCh b && isDigitCh c && isDigitCh d && isDigitCh e
          && isDigitCh f then
        some (100000 * chDigit a + 10000 * chDigit b + 1000 * chDigit c +
          100 * chDigit d + 10 * chDigit e + chDigit f, r)
      else none
  | _ => none

/-- Consume one expected separator character. -/
def expectCh (c : Char) : List Char → Option (List Char)
  | d :: r => if d == c then some r else none
  | _ => none

/-- Model of `datetime.fromisoformat`, restricted to the grammar that
`DateTime.isoformat` emits (`YYYY-MM-DDTHH:MM:SS` with optional
`.ffffff`); any other input is rejected.  The loader only ever feeds it
strings written by `isoformat`, and wraps the call in `try/except`. -/
def fromisoformat (s : List Char) : Option DateTime :=
  match parse4 s with
  | none => none
  | some (y, s) =>
    match expectCh '-' s with
    | none => none
    | some s =>
      match parse2 s with
      | none => none
      | some (mo, s) =>
        match expectCh '-' s with
        | none => none
        | some s =>
          match parse2 s with
          | none => none
          | some (da, s) =>
            match expectCh 'T' s with
            | none => none
            | some s =>
              match parse2 s with
              | none => none
              | some (h, s) =>
                match expectCh ':' s with
                | none => none
                | some s =>
                  match parse2 s with
                  | none => none
                  | some (mi, s) =>
                    match expectCh ':' s with
                    | none => none
                    | some s =>
                      match parse2 s with
                      | none => none
                      | some (se, s) =>
                        match s with
                        | [] => some ⟨y, mo, da, h, mi, se, 0⟩
                        | '.' :: s =>
                          match parse6 s with
                          | some (us, []) => some ⟨y, mo, da, h, mi, se, us⟩
                          | _ => none
                        | _ => none

/-- A catalog part record (`Part` dataclass from `config/schemas.py`). -/
structure Part where
  part_number : List Char
  description : List Char := []
  category : List Char := []
  page_reference : Nat := 0
  status : PartStatus := .extracted
  price : Option ℚ := none
  last_price_update : Option DateTime := none
  source_catalog : List Char := []
  vendor : List Char := "Jacuzzi".data
  sku : List Char := []
deriving DecidableEq

/-- The dictionary written by `Part.to_dict` (keys in source order). -/
structure PartDict where
  sku : List Char
  part_number : List Char
  description : List Char
  category : List Char
  unit_price : Option ℚ
  last_updated : Option (List Char)
  source_catalog : List Char
  vendor : List Char
  status : List Char
  page_reference : Nat
deriving DecidableEq

/-- Model of `config/schemas.py::Part.to_dict`; `self.sku or self.part_number`
falls back to the part number when the sku string is empty. -/
def Part.to_dict (p : Part) : PartDict :=
  { sku := if p.sku = [] then p.part_number else p.sku
    part_number := p.part_number
    description := p.description
    category := p.category
    unit_price := p.price
    last_updated := p.last_price_update.map DateTime.isoformat
    source_catalog := p.source_catalog
    vendor := p.vendor
    status := statusValue p.status
    page_reference := p.page_reference }

/-- The per-record body of `src/data_manager.py::load_previous_parts`
(lines 279-299): rebuild a `Part` from one persisted dictionary.
`PartStatus(...)` raising on an unknown status value is modelled as `none`;
a missing, empty or unparseable `last_updated` leaves the timestamp unset. -/
def load_part_from_dict (d : PartDict) : Option Part :=
  match statusOfValue d.status with
  | none => none
  | some st =>
    let base : Part :=
      { part_number := d.part_number
        description := d.description
        category := d.category
        page_reference := d.page_reference
        price := d.unit_price
        source_catalog := d.source_catalog
        vendor := d.vendor
        sku := d.sku
        status := st
        last_price_update := none }
    some <|
      match d.last_updated with
      | none => base
      | some s =>
        if s = [] then base
        else
          match fromisoformat s with
          | some dt => { base with last_price_update := some dt }
          | none => base

example :
    fromisoformat (DateTime.isoformat ⟨2024, 3, 7, 15, 4, 9, 0⟩) =
      some ⟨2024, 3, 7, 15, 4, 9, 0⟩ := by decide
example :
    fromisoformat (DateTime.isoformat ⟨2024, 12, 31, 23, 59, 59, 123456⟩) =
      some ⟨2024, 12, 31, 23, 59, 59, 123456⟩ := by decide

/-!
## RecordDeduplicator: `src/pdf_extractor.py::_deduplicate_parts`

The Python code groups parts in a dict keyed by part number (insertion
order = first-occurrence order, each group in appearance order), then keeps
the sole member of singleton groups and, for larger groups,
`max(part_list, key=lambda p: len(p.description) + len(p.category))` --
Python's `max` returns the first element attaining the maximum.
-/

/-- The completeness proxy `len(p.description) + len(p.category)`. -/
def infoLen (p : Part) : Nat := p.description.length + p.category.length

/-- The dict keys of `part_groups`, in insertion (first-occurrence) order. -/
def groupKeys (parts : List Part) : List (List Char) :=
  parts.foldl (fun ks p => if p.part_number ∈ ks then ks else ks ++ [p.part_number]) []

/-- The group of records sharing identifier `k`, in appearance order. -/
def groupOf (parts : List Part) (k : List Char) : List Part :=
  parts.filter fun p => p.part_number = k

/-- Python `max(xs, key=...)` over `best :: rest`: replace the running best
only on a strictly larger key, so the first maximal element wins. -/
def pyMax (key : Part → Nat) : Part → List Part → Part
  | best, [] => best
  | best, p :: ps => if key best < key p then pyMax key p ps else pyMax key best ps

/-- The record kept from one group: singleton groups pass through, larger
groups keep the first record maximising `infoLen`. -/
def selectBest : List Part → Option Part
  | [] => none
  | [p] => some p
  | p :: ps => some (pyMax infoLen p ps)

/-- Model of `src/pdf_extractor.py::_deduplicate_parts`. -/
def deduplicate_parts (parts : List Part) : List Part :=
  if parts = [] then parts
  else (groupKeys parts).filterMap fun k => selectBest (groupOf parts k)

/-!
## PriceFetchSession: `_parse_price_from_table`

A results table is a list of `tr` rows; the code reads header cells from
the `th` elements of row 0 and data cells from the `td` elements of row 1.
Cell text is what Selenium's `.text` returns.
-/

/-- One `tr` row of the results table. -/
structure TRow where
  th : List (List Char)
  td : List (List Char)
deriving DecidableEq

/-- Model of `needle` is a prefix of `hay`. -/
def listStarts : List Char → List Char → Bool
  | [], _ => true
  | _ :: _, [] => false
  | a :: as, b :: bs => a == b && listStarts as bs

/-- Python's substring test `needle in hay`. -/
def substrIn (needle : List Char) : List Char → Bool
  | [] => needle.isEmpty
  | c :: cs => listStarts needle (c :: cs) || substrIn needle cs

/-- Leftmost match of `[\d,]+\.?\d*` in comma-free text: the match starts
at the first digit and takes the digit run, an optional dot, then a digit
run (the regex is greedy). `none` when the text holds no digit. -/
def searchNumeric : List Char → Option (List Char)
  | [] => none
  | c :: cs =>
    if isDigitCh c then
      some
        (let ds := (c :: cs).takeWhile isDigitCh
         match (c :: cs).dropWhile isDigitCh with
         | '.' :: r => ds ++ '.' :: r.takeWhile isDigitCh
         | _ => ds)
    else searchNumeric cs

/-- Python `.replace(',', '')`: delete every comma. -/
def dropCommas (s : List Char) : List Char := s.filter fun c => !(c == ',')

/-- Natural number denoted by a list of ASCII digits. -/
def natOfDigits (l : List Char) : Nat := l.foldl (fun a c => 10 * a + chDigit c) 0

/-- Model of `float(s)` for the strings `searchNumeric` produces: integer digits,
optionally a dot and fraction digits, read as the exact decimal
`ip.fp = (ip * 10^|fp| + fp) / 10^|fp|`. -/
def ratOfNumStr (l : List Char) : ℚ :=
  let ip := l.takeWhile fun c => c ≠ '.'
  match l.dropWhile fun c => c ≠ '.' with
  | [] => (natOfDigits ip : ℚ)
  | _ :: fp => mkRat (natOfDigits ip * 10 ^ fp.length + natOfDigits fp) (10 ^ fp.length)

/-- Model of `src/price_fetcher.py::_parse_price_from_table`: need a header row plus
a data row; find the first header cell whose lower-cased text contains both
`net` and `price`; read the first data row's cell in that column; strip it,
delete commas, and parse the leftmost numeric match. -/
def parse_price_from_table (rows : List TRow) : Option ℚ :=
  match rows with
  | header_row :: data_row :: _ =>
    let headers := header_row.th.map fun h => pyLower (pyStrip h)
    match headers.findIdx? (fun h =>
        substrIn "net".data h && substrIn "price".data h) with
    | none => none
    | some net_price_col =>
      let cells := data_row.td
      if cells.length ≤ net_price_col then none
      else
        let price_text := pyStrip (cells.getD net_price_col [])
        match searchNumeric (dropCommas price_text) with
        | some m => some (ratOfNumStr m)
        | none => none
  | _ => none

example :
    parse_price_from_table
      [⟨["Part".data, "Net Unit Price".data], []⟩,
       ⟨[], ["6000-487".data, "$123.45".data]⟩] = some (mkRat 12345 100) := by decide
example :
    parse_price_from_table [⟨["Part".data, "Net Unit Price".data], []⟩] = none := by
  decide
example :
    parse_price_from_table
      [⟨["Part".data, "Net Unit Price".data], []⟩,
       ⟨[], ["6000-487".data, "$1,234.50".data]⟩] = some (mkRat 12345 10) := by decide

/-!
## CatalogMetadataResolver: `src/pdf_extractor.py::_extract_catalog_version`
-/

/-- Model of `re.search(r'(\d{4})', filename)`: the leftmost four consecutive
digits, if any. -/
def firstFourDigits : List Char → Option (List Char)
  | a :: b :: c :: d :: rest =>
    if isDigitCh a && isDigitCh b && isDigitCh c && isDigitCh d then some [a, b, c, d]
    else firstFourDigits (b :: c :: d :: rest)
  | _ => none

/-- Offset just past the last case-insensitive occurrence of `catalog`
inside `seg` (`.*` is greedy, so the rightmost occurrence is kept). -/
def lastCatalogEnd (seg : List Char) : Option Nat :=
  (((List.range seg.length).filter fun i =>
      pyLower ((seg.drop i).take 7) = "catalog".data).getLast?).map (· + 7)

/-- Model of `re.search(r'(\d{4}.*catalog)', text, re.IGNORECASE)`: leftmost start of
four digits followed, within the same line (`.` does not cross newlines),
by a case-insensitive `catalog`; the greedy `.*` runs to the last such
`catalog` on the line. -/
def searchVersionCatalog : List Char → Option (List Char)
  | a :: b :: c :: d :: rest =>
    if isDigitCh a && isDigitCh b && isDigitCh c && isDigitCh d then
      let seg := rest.takeWhile fun ch => ch ≠ '\n'
      match lastCatalogEnd seg with
      | some e => some ([a, b, c, d] ++ seg.take e)
      | none => searchVersionCatalog (b :: c :: d :: rest)
    else searchVersionCatalog (b :: c :: d :: rest)
  | _ => none

/-- Model of `src/pdf_extractor.py::_extract_catalog_version`.  `stem` is the
filename without extension; `page1` is the text of page 1 when the PDF
opens, has a page and yields text (every failure on that path is swallowed
by `try/except`), `none` otherwise. -/
def extract_catalog_version (stem : List Char) (page1 : Option (List Char)) :
    List Char :=
  match firstFourDigits stem with
  | some v => v
  | none =>
    match page1 with
    | some text =>
      match searchVersionCatalog text with
      | some v => v
      | none => "Unknown".data
    | none => "Unknown".data

example : extract_catalog_version "sundance_2015_parts".data none = "2015".data := by
  decide
example :
    extract_catalog_version "parts".data (some "the 2015 Spring catalog".data) =
      "2015 Spring catalog".data := by decide
example : extract_catalog_version "parts".data none = "Unknown".data := by decide

/-!
## `src/utils.py::chunk_list`
-/

/-- Model of `chunk_list(lst, n)` = `[lst[i:i+n] for i in range(0, len(lst), n)]`
(for a positive chunk size; Python raises on step 0, and the sole caller
passes 10). -/
def chunk_list (l : List α) (n : Nat) : List (List α) :=
  (List.range ((l.length + n - 1) / n)).map fun i => (l.drop (i * n)).take n

example : chunk_list [1, 2, 3, 4, 5] 2 = [[1, 2], [3, 4], [5]] := by decide
example : chunk_list ([] : List Nat) 2 = [] := by decide
example : chunk_list [1, 2] 5 = [[1, 2]] := by decide

/-!
## PriceFetchSession: `src/price_fetcher.py::fetch_prices`

`fetch_prices` drives an external browser session, so the session's
observable behaviour is supplied by an environment: whether driver setup
raises, the credential entry, the login/navigation outcomes, the outcome of
each successive `_fetch_part_price` call, and the point (if any) at which a
session-level exception escapes the per-part `try/except` (such exceptions
can only arise between lookups -- rate-limit sleeps, logging -- because
`_fetch_part_price` and the per-part body swallow all their own errors).
The wall clock of `datetime.now()` is a single environment value.
-/

/-- Outcome of one `_fetch_part_price` call. -/
inductive LookupOutcome where
  | found (price : ℚ)
  | absent
  | raised (msg : List Char)

/-- A processing error record (`ProcessingError` from `config/schemas.py`);
its `datetime.now()` timestamp field is not modelled. -/
structure PError where
  part_number : List Char
  error_type : ErrorType
  error_message : List Char
  retry_count : Nat := 0
  page_reference : Nat := 0
deriving DecidableEq

/-- Environment of one `fetch_prices` run. -/
structure FetchEnv where
  setup_exc : Option (List Char) := none
  creds : Option Unit := some ()
  login_timeout : Bool := false
  login_marker : Bool := true
  nav_ok : Bool := true
  outcome : Nat → LookupOutcome := fun _ => .absent
  crash_at : Option Nat := none
  crash_msg : List Char := []
  now : DateTime := ⟨2024, 1, 1, 0, 0, 0, 0⟩

/-- Model of `src/price_fetcher.py::_login`: `False` when the `Jacuzzi Dealer`
credential entry is missing, when waiting for the login form times out, or
when the post-login page lacks the `logout`/`welcome` marker. -/
def login_succeeds (env : FetchEnv) : Bool :=
  match env.creds with
  | none => false
  | some _ => if env.login_timeout then false else env.login_marker

/-- Accumulated state of the per-part loop. -/
structure LoopResult where
  updated : List Part
  errors : List PError
  attempted : List (List Char)
  crashed : Bool
deriving Inhabited

/-- The chunked per-part loop of `fetch_prices` (lines 77-115), indexed by
the running count `n` of parts processed so far.  A crash at index `n`
abandons the rest of the batch and reports `crashed`; otherwise the part is
looked up: a price marks it `priced` and appends it to `updated_parts`, a
missing price records a `part_not_found` error, and a caught per-part
exception records an `unexpected` error. -/
def runParts (env : FetchEnv) : Nat → List Part → LoopResult
  | _, [] => ⟨[], [], [], false⟩
  | n, p :: ps =>
    if env.crash_at = some n then ⟨[], [], [], true⟩
    else
      let r := runParts env (n + 1) ps
      match env.outcome n with
      | .found q =>
        let p' : Part :=
          { p with price := some q, last_price_update := some env.now, status := .priced }
        ⟨p' :: r.updated, r.errors, p.part_number :: r.attempted, r.crashed⟩
      | .absent =>
        ⟨r.updated,
          ⟨p.part_number, .part_not_found, "Part not found in Jacuzzi system".data,
            0, p.page_reference⟩ :: r.errors,
          p.part_number :: r.attempted, r.crashed⟩
      | .raised m =>
        ⟨r.updated,
          ⟨p.part_number, .unexpected, m, 0, p.page_reference⟩ :: r.errors,
          p.part_number :: r.attempted, r.crashed⟩

/-- Result of a `fetch_prices` run.  `attempted` lists the identifiers for
which `_fetch_part_price` was called; `cleanup_ran` / `driver_final` record
the `finally: self._cleanup_driver()` effect (the driver handle is dropped
on every path, `self.driver = None`). -/
structure FetchResult where
  updated : List Part
  errors : List PError
  attempted : List (List Char)
  cleanup_ran : Bool
  driver_final : Option Unit
deriving Inhabited

/-- Model of `src/price_fetcher.py::fetch_prices`.  Setup failure re-raises out of
`_setup_driver` into the outer `except`, which records one sentinel error;
a failed login or navigation returns early with its sentinel error; the
outer `except` also catches a session-level crash after the loop has
partially run, appending one sentinel error to whatever the loop recorded.
The `finally` block always runs `_cleanup_driver`. -/
def fetch_prices (env : FetchEnv) (parts : List Part) : FetchResult :=
  match env.setup_exc with
  | some m =>
    ⟨[], [⟨"ALL".data, .unexpected, "Critical error: ".data ++ m, 0, 0⟩], [],
      true, none⟩
  | none =>
    if !login_succeeds env then
      ⟨[], [⟨"ALL".data, .login_failed,
          "Failed to login to Jacuzzi dealer website".data, 0, 0⟩], [],
        true, none⟩
    else if !env.nav_ok then
      ⟨[], [⟨"ALL".data, .network_error,
          "Failed to navigate to price lookup page".data, 0, 0⟩], [],
        true, none⟩
    else
      let r := runParts env 0 (chunk_list parts 10).flatten
      ⟨r.updated,
        r.errors ++
          (if r.crashed then
            [⟨"ALL".data, .unexpected, "Critical error: ".data ++ env.crash_msg, 0, 0⟩]
          else []),
        r.attempted, true, none⟩

/-!
## Record-set export: `src/data_manager.py::generate_lou_csv`
-/

/-- Model of `LOU_CSV_COLUMNS` from `config/settings.py`, verbatim and in order. -/
def LOU_CSV_COLUMNS : List (List Char) :=
  ["sku".data, "part_number".data, "description".data, "category".data,
    "unit_price".data, "last_updated".data, "source_catalog".data,
    "vendor".data, "status".data]

/-- One CSV row as written by `_prepare_lou_csv_row` (field per column;
`unit_price` is the float or the empty-string placeholder, modelled as
`Option`). -/
structure LouRow where
  sku : List Char
  part_number : List Char
  description : List Char
  category : List Char
  unit_price : Option ℚ
  last_updated : List Char
  source_catalog : List Char
  vendor : List Char
  status : List Char
deriving DecidableEq

/-- Model of `src/data_manager.py::_prepare_lou_csv_row`. -/
def prepare_lou_csv_row (p : Part) : LouRow :=
  { sku := if p.sku = [] then p.part_number else p.sku
    part_number := p.part_number
    description := p.description.take 200
    category := p.category
    unit_price := p.price
    last_updated :=
      match p.last_price_update with
      | some dt => dt.isoformat
      | none => []
    source_catalog := p.source_catalog
    vendor := p.vendor
    status := statusValue p.status }

/-- The readiness filter of `generate_lou_csv` (line 82):
`p.status in [PartStatus.PRICED, PartStatus.ACTIVE]`. -/
def lou_ready (p : Part) : Bool :=
  p.status = PartStatus.priced || p.status = PartStatus.active

/-- The data rows of the CSV `generate_lou_csv` writes (the header row is
`LOU_CSV_COLUMNS`, passed to `csv.DictWriter` as `fieldnames`). -/
def generate_lou_rows (parts : List Part) : List LouRow :=
  (parts.filter lou_ready).map prepare_lou_csv_row

/-- The column set asserted by the specification for the record-set export:
identifier, description, category, price, last-update timestamp, source
catalog, vendor, status, page reference -- rendered with the code's field
names.  Kept separate from `LOU_CSV_COLUMNS` so the two can be compared. -/
def spec_lou_columns : List (List Char) :=
  ["part_number".data, "description".data, "category".data, "unit_price".data,
    "last_updated".data, "source_catalog".data, "vendor".data, "status".data,
    "page_reference".data]

/-!
## Lemmas about `chunk_list`
-/

/-- Fuel-indexed reformulation of `chunk_list`, used for induction. -/
def chunkFuel : Nat → Nat → List α → List (List α)
  | 0, _, _ => []
  | _ + 1, _, [] => []
  | fuel + 1, n, c :: cs => (c :: cs).take n :: chunkFuel fuel n ((c :: cs).drop n)

lemma chunk_list_nil (n : Nat) : chunk_list ([] : List α) n = [] := by
  unfold chunk_list
  have h : (List.length ([] : List α) + n - 1) / n = 0 := by
    cases n with
    | zero => simp
    | succ m =>
      simp only [List.length_nil]
      exact Nat.div_eq_of_lt (by omega)
  rw [h]
  simp

lemma chunk_list_cons {n : Nat} (hn : 0 < n) (c : α) (cs : List α) :
    chunk_list (c :: cs) n = (c :: cs).take n :: chunk_list ((c :: cs).drop n) n := by
  have hlen : (c :: cs).length = cs.length + 1 := rfl
  have hcount : ((c :: cs).length + n - 1) / n = ((c :: cs).length - 1) / n + 1 := by
    have h1 : (c :: cs).length + n - 1 = ((c :: cs).length - 1) + n := by
      rw [hlen]; omega
    rw [h1, Nat.add_div_right _ hn]
  have hcount' : (((c :: cs).drop n).length + n - 1) / n = ((c :: cs).length - 1) / n := by
    rw [List.length_drop]
    by_cases hge : n ≤ (c :: cs).length
    · congr 1
      omega
    · have h1 : (c :: cs).length - n = 0 := by omega
      rw [h1, Nat.div_eq_of_lt (by omega), Nat.div_eq_of_lt (by rw [hlen]; omega)]
  unfold chunk_list
  rw [hcount, hcount', List.range_succ_eq_map, List.map_cons, List.map_map]
  congr 1
  · simp
  · apply List.map_congr_left
    intro i _
    simp only [Function.comp_apply, List.drop_drop]
    congr 2
    rw [Nat.succ_mul]
    omega

lemma chunk_list_eq_chunkFuel {n : Nat} (hn : 0 < n) :
    ∀ (fuel : Nat) (l : List α), l.length ≤ fuel → chunk_list l n = chunkFuel fuel n l := by
  intro fuel
  induction fuel with
  | zero =>
    intro l hl
    have : l = [] := List.eq_nil_of_length_eq_zero (by omega)
    subst this
    simp [chunk_list_nil, chunkFuel]
  | succ f ih =>
    intro l hl
    cases l with
    | nil => simp [chunk_list_nil, chunkFuel]
    | cons c cs =>
      rw [chunk_list_cons hn, show chunkFuel (f + 1) n (c :: cs) =
        (c :: cs).take n :: chunkFuel f n ((c :: cs).drop n) from rfl]
      congr 1
      refine ih _ ?_
      have h1 : ((c :: cs).drop n).length = cs.length + 1 - n := by
        simp [List.length_drop]
      have h2 : cs.length + 1 ≤ f + 1 := hl
      rw [h1]
      omega

lemma chunkFuel_nil (fuel n : Nat) : chunkFuel fuel n ([] : List α) = [] := by
  cases fuel <;> rfl

lemma chunkFuel_flatten {n : Nat} (hn : 0 < n) :
    ∀ (fuel : Nat) (l : List α), l.length ≤ fuel → (chunkFuel fuel n l).flatten = l := by
  intro fuel
  induction fuel with
  | zero =>
    intro l hl
    have : l = [] := List.eq_nil_of_length_eq_zero (by omega)
    subst this
    rfl
  | succ f ih =>
    intro l hl
    cases l with
    | nil => rfl
    | cons c cs =>
      show ((c :: cs).take n :: chunkFuel f n ((c :: cs).drop n)).flatten = c :: cs
      have h1 : ((c :: cs).drop n).length = cs.length + 1 - n := by
        simp [List.length_drop]
      have h2 : cs.length + 1 ≤ f + 1 := hl
      rw [List.flatten_cons, ih _ (by rw [h1]; omega), List.take_append_drop]

/-- Model of `chunk_list` reassembles to the original list. -/
lemma chunk_list_flatten {n : Nat} (hn : 0 < n) (l : List α) :
    (chunk_list l n).flatten = l := by
  rw [chunk_list_eq_chunkFuel hn l.length l le_rfl]
  exact chunkFuel_flatten hn l.length l le_rfl

lemma chunkFuel_mem_ne_nil {n : Nat} (hn : 0 < n) :
    ∀ (fuel : Nat) (l : List α) (c : List α), c ∈ chunkFuel fuel n l → c ≠ [] := by
  intro fuel
  induction fuel with
  | zero => intro l c hc; simp [chunkFuel] at hc
  | succ f ih =>
    intro l c hc
    cases l with
    | nil => simp [chunkFuel] at hc
    | cons a as =>
      rw [show chunkFuel (f + 1) n (a :: as) =
        (a :: as).take n :: chunkFuel f n ((a :: as).drop n) from rfl,
        List.mem_cons] at hc
      rcases hc with rfl | hmem
      · obtain ⟨m, rfl⟩ := Nat.exists_eq_succ_of_ne_zero (Nat.pos_iff_ne_zero.mp hn)
        simp [List.take_succ_cons]
      · exact ih _ _ hmem

lemma chunkFuel_eq_nil_iff {n : Nat} :
    ∀ (fuel : Nat) (l : List α), l.length ≤ fuel → (chunkFuel fuel n l = [] ↔ l = []) := by
  intro fuel l hl
  cases l with
  | nil => simp [chunkFuel_nil]
  | cons c cs =>
    cases fuel with
    | zero => simp at hl
    | succ f =>
      constructor
      · intro h
        exact absurd h (by simp [chunkFuel])
      · intro h
        exact absurd h (by simp)

lemma chunkFuel_full {n : Nat} (hn : 0 < n) :
    ∀ (fuel : Nat) (l : List α) (i : Nat), l.length ≤ fuel →
      i + 1 < (chunkFuel fuel n l).length → ((chunkFuel fuel n l).getD i []).length = n := by
  intro fuel
  induction fuel with
  | zero => intro l i hl hi; simp [chunkFuel] at hi
  | succ f ih =>
    intro l i hl hi
    cases l with
    | nil => simp [chunkFuel] at hi
    | cons c cs =>
      have hrec : chunkFuel (f + 1) n (c :: cs) =
          (c :: cs).take n :: chunkFuel f n ((c :: cs).drop n) := rfl
      rw [hrec] at hi ⊢
      cases i with
      | zero =>
        have hne : chunkFuel f n ((c :: cs).drop n) ≠ [] := by
          intro h
          rw [h] at hi
          simp at hi
        have hdrop : (c :: cs).drop n ≠ [] := by
          intro h
          rw [h] at hne
          exact hne (chunkFuel_nil f n)
        have hlt : n < (c :: cs).length := by
          by_contra hcon
          exact hdrop (List.drop_eq_nil_of_le (by omega))
        have hlen : (c :: cs).length = cs.length + 1 := rfl
        rw [hlen] at hlt
        simp [List.length_take]
        omega
      | succ j =>
        show ((chunkFuel f n ((c :: cs).drop n)).getD j []).length = n
        have h1 : ((c :: cs).drop n).length = cs.length + 1 - n := by
          simp [List.length_drop]
        have h2 : cs.length + 1 ≤ f + 1 := hl
        exact ih _ _ (by rw [h1]; omega) (by simpa using hi)

/-- C10: for a positive chunk size, `chunk_list` partitions the list: the
chunks concatenate to the input in order (no element duplicated or
dropped), every chunk is non-empty, every chunk except possibly the last
has length exactly `n`, and the output is empty exactly when the input
is. -/
theorem chunk_list_spec {α : Type} (l : List α) (n : Nat) (hn : 0 < n) :
    (chunk_list l n).flatten = l ∧
    (∀ c ∈ chunk_list l n, c ≠ []) ∧
    (∀ i : Nat, i + 1 < (chunk_list l n).length →
      ((chunk_list l n).getD i []).length = n) ∧
    (chunk_list l n = [] ↔ l = []) := by
  rw [chunk_list_eq_chunkFuel hn l.length l le_rfl]
  exact ⟨chunkFuel_flatten hn l.length l le_rfl,
    fun c hc => chunkFuel_mem_ne_nil hn l.length l c hc,
    fun i hi => chunkFuel_full hn l.length l i le_rfl hi,
    chunkFuel_eq_nil_iff l.length l le_rfl⟩

/-- Witness for `chunk_list_spec` at a concrete list and chunk size. -/
theorem chunk_list_spec_witness :
    0 < 2 ∧ (chunk_list [10, 20, 30] 2).flatten = [10, 20, 30] ∧
      (chunk_list ([] : List Nat) 2 = [] ↔ ([] : List Nat) = []) := by
  refine ⟨by decide, (chunk_list_spec [10, 20, 30] 2 (by decide)).1, ?_⟩
  exact (chunk_list_spec ([] : List Nat) 2 (by decide)).2.2.2

/-!
## Lemmas about the price-fetch session
-/

lemma runParts_no_crash (env : FetchEnv) (hc : env.crash_at = none) :
    ∀ (l : List Part) (n : Nat),
      (runParts env n l).attempted = l.map Part.part_number ∧
        (runParts env n l).crashed = false := by
  intro l
  induction l with
  | nil => intro n; exact ⟨rfl, rfl⟩
  | cons p ps ih =>
    intro n
    have hguard : ¬env.crash_at = some n := by rw [hc]; simp
    cases houtcome : env.outcome n <;>
      simp [runParts, hguard, houtcome, (ih (n + 1)).1, (ih (n + 1)).2]

lemma runParts_crash (env : FetchEnv) :
    ∀ (l : List Part) (n i : Nat), env.crash_at = some (n + i) → i < l.length →
      runParts env n l =
        ⟨(runParts { env with crash_at := none } n (l.take i)).updated,
         (runParts { env with crash_at := none } n (l.take i)).errors,
         (runParts { env with crash_at := none } n (l.take i)).attempted, true⟩ := by
  intro l
  induction l with
  | nil => intro n i hc hi; simp at hi
  | cons p ps ih =>
    intro n i hc hi
    cases i with
    | zero =>
      have hcrash : env.crash_at = some n := by simpa using hc
      simp [runParts, hcrash]
    | succ j =>
      have hguard : ¬env.crash_at = some n := by
        rw [hc]
        simp
      have hcrec : env.crash_at = some ((n + 1) + j) := by
        rw [hc]
        congr 1
        omega
      have hrec := ih (n + 1) j hcrec (by simpa using hi)
      cases houtcome : env.outcome n <;>
        simp [runParts, hguard, houtcome, hrec, List.take_succ_cons]

/-- C6: the driver resource is released on every exit path of
`fetch_prices`, and a session-level exception raised before the `i`-th
lookup abandons the remaining records as a batch, appends exactly one
further sentinel error to the run's error list, and still runs cleanup. -/
theorem fetch_prices_session_safety :
    (∀ (env : FetchEnv) (parts : List Part),
      (fetch_prices env parts).cleanup_ran = true ∧
        (fetch_prices env parts).driver_final = none) ∧
    (∀ (env : FetchEnv) (parts : List Part) (i : Nat),
      env.setup_exc = none → login_succeeds env = true → env.nav_ok = true →
      env.crash_at = some i → i < parts.length →
      fetch_prices env parts =
        ⟨(runParts { env with crash_at := none } 0 (parts.take i)).updated,
         (runParts { env with crash_at := none } 0 (parts.take i)).errors ++
           [⟨"ALL".data, .unexpected, "Critical error: ".data ++ env.crash_msg, 0, 0⟩],
         (parts.take i).map Part.part_number, true, none⟩) := by
  constructor
  · intro env parts
    unfold fetch_prices
    cases hs : env.setup_exc with
    | some m => exact ⟨rfl, rfl⟩
    | none =>
      by_cases hl : login_succeeds env
      · by_cases hn : env.nav_ok
        · simp [hl, hn]
        · simp [hl, hn]
      · simp [hl]
  · intro env parts i hsetup hlogin hnav hcrash hi
    have hflat : (chunk_list parts 10).flatten = parts :=
      chunk_list_flatten (by omega) parts
    have hrun := runParts_crash env parts 0 i (by simpa using hcrash) hi
    have hatt : (runParts { env with crash_at := none } 0 (parts.take i)).attempted =
        (parts.take i).map Part.part_number :=
      (runParts_no_crash { env with crash_at := none } rfl (parts.take i) 0).1
    rw [hsetup, hnav] at hrun hatt
    unfold fetch_prices
    rw [hsetup]
    simp [hlogin, hnav, hflat, hrun, hatt]

/-- Witness for `fetch_prices_session_safety`: a crash before the first
lookup of a two-part batch. -/
theorem fetch_prices_session_safety_witness :
    fetch_prices { crash_at := some 0, crash_msg := "boom".data }
        [{ part_number := "6000-487".data }, { part_number := "6000-488".data }] =
      ⟨(runParts { crash_at := none, crash_msg := "boom".data } 0 []).updated,
       (runParts { crash_at := none, crash_msg := "boom".data } 0 []).errors ++
         [⟨"ALL".data, .unexpected, "Critical error: boom".data, 0, 0⟩],
       [], true, none⟩ := by
  have h := fetch_prices_session_safety.2
    { crash_at := some 0, crash_msg := "boom".data }
    [{ part_number := "6000-487".data }, { part_number := "6000-488".data }]
    0 rfl rfl rfl rfl (by simp)
  simpa using h

/-- C5: with the driver set up, a failed login (covering a missing
credential entry) or a failed navigation to the price-lookup page ends the
run with no updated parts, no attempted lookups, and exactly one sentinel
error targeting `ALL`, classified `login_failed` resp. `network_error`. -/
theorem fetch_prices_whole_run_failure (env : FetchEnv) (parts : List Part)
    (hsetup : env.setup_exc = none) :
    (login_succeeds env = false →
      fetch_prices env parts =
        ⟨[], [⟨"ALL".data, .login_failed,
            "Failed to login to Jacuzzi dealer website".data, 0, 0⟩], [], true, none⟩) ∧
    (login_succeeds env = true → env.nav_ok = false →
      fetch_prices env parts =
        ⟨[], [⟨"ALL".data, .network_error,
            "Failed to navigate to price lookup page".data, 0, 0⟩], [], true, none⟩) := by
  constructor
  · intro hlog
    unfold fetch_prices
    rw [hsetup]
    simp [hlog]
  · intro hlog hnav
    unfold fetch_prices
    rw [hsetup]
    simp [hlog, hnav]

/-- Witness for `fetch_prices_whole_run_failure`: missing credentials. -/
theorem fetch_prices_whole_run_failure_witness :
    login_succeeds { creds := none } = false ∧
    fetch_prices { creds := none } [{ part_number := "6000-487".data }] =
      ⟨[], [⟨"ALL".data, .login_failed,
          "Failed to login to Jacuzzi dealer website".data, 0, 0⟩], [], true, none⟩ :=
  ⟨rfl, (fetch_prices_whole_run_failure { creds := none }
    [{ part_number := "6000-487".data }] rfl).1 rfl⟩

/-!
## Lemmas about the deduplicator
-/

/-- Model of `r` is the first record of `g` attaining the maximal `infoLen`:
everything before it is strictly smaller, everything after it no larger. -/
def FirstMax (g : List Part) (r : Part) : Prop :=
  ∃ pre suf, g = pre ++ r :: suf ∧ (∀ q ∈ pre, infoLen q < infoLen r) ∧
    ∀ q ∈ suf, infoLen q ≤ infoLen r

lemma pyMax_ge (key : Part → Nat) :
    ∀ (l : List Part) (b : Part), key b ≤ key (pyMax key b l) := by
  intro l
  induction l with
  | nil => intro b; exact le_rfl
  | cons p ps ih =>
    intro b
    by_cases h : key b < key p
    · simp only [pyMax, if_pos h]
      exact le_trans (le_of_lt h) (ih p)
    · simp only [pyMax, if_neg h]
      exact ih b

lemma pyMax_first_max (key : Part → Nat) :
    ∀ (l : List Part) (b : Part),
      ∃ pre suf, b :: l = pre ++ pyMax key b l :: suf ∧
        (∀ q ∈ pre, key q < key (pyMax key b l)) ∧
        ∀ q ∈ suf, key q ≤ key (pyMax key b l) := by
  intro l
  induction l with
  | nil =>
    intro b
    exact ⟨[], [], rfl, by simp, by simp⟩
  | cons p ps ih =>
    intro b
    by_cases h : key b < key p
    · simp only [pyMax, if_pos h]
      obtain ⟨pre, suf, hdec, hpre, hsuf⟩ := ih p
      refine ⟨b :: pre, suf, by rw [List.cons_append, ← hdec], ?_, hsuf⟩
      intro q hq
      rcases List.mem_cons.mp hq with rfl | hq
      · exact lt_of_lt_of_le h (pyMax_ge key ps p)
      · exact hpre q hq
    · simp only [pyMax, if_neg h]
      obtain ⟨pre, suf, hdec, hpre, hsuf⟩ := ih b
      cases pre with
      | nil =>
        simp only [List.nil_append] at hdec
        obtain ⟨hb, hs⟩ := List.cons.inj hdec
        refine ⟨[], p :: suf, ?_, by simp, ?_⟩
        · rw [List.nil_append, ← hb, hs]
        · intro q hq
          rcases List.mem_cons.mp hq with rfl | hq
          · rw [← hb]; omega
          · exact hsuf q hq
      | cons b' pre₂ =>
        simp only [List.cons_append] at hdec
        obtain ⟨hb, hs⟩ := List.cons.inj hdec
        have hbpre : key b < key (pyMax key b ps) := by
          have := hpre b' (by simp)
          rw [← hb] at this
          exact this
        refine ⟨b :: p :: pre₂, suf, ?_, ?_, hsuf⟩
        · simp only [List.cons_append]
          rw [← hs]
        · intro q hq
          rcases List.mem_cons.mp hq with rfl | hq
          · exact hbpre
          · rcases List.mem_cons.mp hq with rfl | hq
            · omega
            · exact hpre q (by simp [hq])

lemma selectBest_of_ne_nil :
    ∀ g : List Part, g ≠ [] → ∃ r, selectBest g = some r ∧ r ∈ g ∧ FirstMax g r := by
  intro g hg
  match g with
  | [p] => exact ⟨p, rfl, by simp, ⟨[], [], rfl, by simp, by simp⟩⟩
  | p :: q :: rest =>
    refine ⟨pyMax infoLen p (q :: rest), rfl, ?_, ?_⟩
    · obtain ⟨pre, suf, hdec, -, -⟩ := pyMax_first_max infoLen (q :: rest) p
      rw [hdec]
      simp
    · obtain ⟨pre, suf, hdec, hpre, hsuf⟩ := pyMax_first_max infoLen (q :: rest) p
      exact ⟨pre, suf, hdec, hpre, hsuf⟩

lemma mem_groupOf {parts : List Part} {k : List Char} {p : Part} :
    p ∈ groupOf parts k ↔ p ∈ parts ∧ p.part_number = k := by
  unfold groupOf
  simp [List.mem_filter]

lemma groupKeys_acc_mem :
    ∀ (l : List Part) (acc : List (List Char)) (x : List Char),
      x ∈ l.foldl (fun ks p =>
          if p.part_number ∈ ks then ks else ks ++ [p.part_number]) acc ↔
        x ∈ acc ∨ ∃ p ∈ l, p.part_number = x := by
  intro l
  induction l with
  | nil => intro acc x; simp
  | cons p ps ih =>
    intro acc x
    rw [List.foldl_cons, ih]
    by_cases h : p.part_number ∈ acc
    · simp only [if_pos h]
      constructor
      · rintro (hx | hx)
        · exact Or.inl hx
        · exact Or.inr (by obtain ⟨q, hq, hqx⟩ := hx; exact ⟨q, by simp [hq], hqx⟩)
      · rintro (hx | ⟨q, hq, hqx⟩)
        · exact Or.inl hx
        · rcases List.mem_cons.mp hq with rfl | hq
          · exact Or.inl (hqx ▸ h)
          · exact Or.inr ⟨q, hq, hqx⟩
    · simp only [if_neg h, List.mem_append, List.mem_singleton]
      constructor
      · rintro ((hx | hx) | hx)
        · exact Or.inl hx
        · exact Or.inr ⟨p, by simp, hx.symm⟩
        · exact Or.inr (by obtain ⟨q, hq, hqx⟩ := hx; exact ⟨q, by simp [hq], hqx⟩)
      · rintro (hx | ⟨q, hq, hqx⟩)
        · exact Or.inl (Or.inl hx)
        · rcases List.mem_cons.mp hq with rfl | hq
          · exact Or.inl (Or.inr hqx.symm)
          · exact Or.inr ⟨q, hq, hqx⟩

lemma mem_groupKeys {parts : List Part} {x : List Char} :
    x ∈ groupKeys parts ↔ ∃ p ∈ parts, p.part_number = x := by
  unfold groupKeys
  rw [groupKeys_acc_mem]
  simp

lemma groupKeys_acc_nodup :
    ∀ (l : List Part) (acc : List (List Char)), acc.Nodup →
      (l.foldl (fun ks p =>
        if p.part_number ∈ ks then ks else ks ++ [p.part_number]) acc).Nodup := by
  intro l
  induction l with
  | nil => intro acc h; exact h
  | cons p ps ih =>
    intro acc h
    rw [List.foldl_cons]
    by_cases hm : p.part_number ∈ acc
    · simp only [if_pos hm]
      exact ih acc h
    · simp only [if_neg hm]
      refine ih _ ?_
      rw [List.nodup_append]
      exact ⟨h, List.nodup_singleton _, by simpa [List.disjoint_singleton] using hm⟩

lemma groupKeys_nodup (parts : List Part) : (groupKeys parts).Nodup :=
  groupKeys_acc_nodup parts [] List.nodup_nil

lemma groupKeys_acc_length :
    ∀ (l : List Part) (acc : List (List Char)),
      (l.foldl (fun ks p =>
        if p.part_number ∈ ks then ks else ks ++ [p.part_number]) acc).length ≤
        acc.length + l.length := by
  intro l
  induction l with
  | nil => intro acc; simp
  | cons p ps ih =>
    intro acc
    rw [List.foldl_cons]
    by_cases hm : p.part_number ∈ acc
    · simp only [if_pos hm]
      have := ih acc
      simp only [List.length_cons]
      omega
    · simp only [if_neg hm]
      have := ih (acc ++ [p.part_number])
      simp only [List.length_append, List.length_singleton, List.length_cons,
        List.length_nil] at *
      omega

lemma groupKeys_length (parts : List Part) :
    (groupKeys parts).length ≤ parts.length := by
  have := groupKeys_acc_length parts []
  simpa using this

lemma map_part_number_filterMap (f : List Char → Option Part) :
    ∀ ks : List (List Char),
      (∀ k ∈ ks, ∃ r, f k = some r ∧ r.part_number = k) →
      (ks.filterMap f).map Part.part_number = ks := by
  intro ks
  induction ks with
  | nil => intro _; rfl
  | cons k ks ih =>
    intro h
    obtain ⟨r, hf, hpn⟩ := h k (by simp)
    rw [List.filterMap_cons, hf, List.map_cons, hpn, ih fun x hx => h x (by simp [hx])]

/-- The identifiers of the deduplicated list are exactly the group keys, in
first-occurrence order. -/
lemma deduplicate_parts_map_pn (parts : List Part) :
    (deduplicate_parts parts).map Part.part_number = groupKeys parts := by
  unfold deduplicate_parts
  by_cases hp : parts = []
  · subst hp
    rfl
  · rw [if_neg hp]
    apply map_part_number_filterMap
    intro k hk
    obtain ⟨p, hpmem, hpk⟩ := mem_groupKeys.mp hk
    have hne : groupOf parts k ≠ [] := by
      intro hnil
      have : p ∈ groupOf parts k := mem_groupOf.mpr ⟨hpmem, hpk⟩
      rw [hnil] at this
      exact absurd this (List.not_mem_nil p)
    obtain ⟨r, hr, hrmem, -⟩ := selectBest_of_ne_nil _ hne
    exact ⟨r, hr, (mem_groupOf.mp hrmem).2⟩

lemma deduplicate_parts_length (parts : List Part) :
    (deduplicate_parts parts).length ≤ parts.length := by
  have h1 : (deduplicate_parts parts).length = (groupKeys parts).length := by
    rw [← deduplicate_parts_map_pn parts, List.length_map]
  rw [h1]
  exact groupKeys_length parts

lemma groupOf_of_nodup :
    ∀ parts : List Part, (parts.map Part.part_number).Nodup →
      ∀ p ∈ parts, groupOf parts p.part_number = [p] := by
  intro parts
  induction parts with
  | nil => intro _ p hp; exact absurd hp (List.not_mem_nil p)
  | cons q qs ih =>
    intro hnd p hp
    rw [List.map_cons, List.nodup_cons] at hnd
    rcases List.mem_cons.mp hp with rfl | hp
    · unfold groupOf
      rw [List.filter_cons, if_pos (by simp)]
      congr 1
      rw [List.filter_eq_nil_iff]
      intro a ha
      simp only [decide_eq_true_eq]
      intro hcontra
      exact hnd.1 (hcontra ▸ List.mem_map_of_mem Part.part_number ha)
    · have hne : ¬(q.part_number = p.part_number) := by
        intro hq
        exact hnd.1 (hq ▸ List.mem_map_of_mem Part.part_number hp)
      unfold groupOf
      rw [List.filter_cons, if_neg (by simpa using hne)]
      exact ih hnd.2 p hp

lemma groupKeys_of_nodup :
    ∀ (l : List Part) (acc : List (List Char)),
      (acc ++ l.map Part.part_number).Nodup →
      l.foldl (fun ks p => if p.part_number ∈ ks then ks else ks ++ [p.part_number]) acc =
        acc ++ l.map Part.part_number := by
  intro l
  induction l with
  | nil => intro acc _; simp
  | cons p ps ih =>
    intro acc hnd
    have hnotin : p.part_number ∉ acc := by
      rw [List.nodup_append] at hnd
      intro hmem
      exact hnd.2.2 hmem (by simp)
    rw [List.foldl_cons, if_neg hnotin, ih (acc ++ [p.part_number]) (by simpa using hnd)]
    simp

lemma filterMap_map_pn (f : List Char → Option Part) :
    ∀ l : List Part, (∀ p ∈ l, f p.part_number = some p) →
      (l.map Part.part_number).filterMap f = l := by
  intro l
  induction l with
  | nil => intro _; rfl
  | cons p ps ih =>
    intro h
    rw [List.map_cons, List.filterMap_cons, h p (by simp),
      ih fun q hq => h q (by simp [hq])]

lemma deduplicate_parts_of_nodup (l : List Part)
    (hnd : (l.map Part.part_number).Nodup) : deduplicate_parts l = l := by
  unfold deduplicate_parts
  by_cases hl : l = []
  · rw [if_pos hl]
  · rw [if_neg hl]
    have hgk : groupKeys l = l.map Part.part_number := by
      unfold groupKeys
      have := groupKeys_of_nodup l [] (by simpa using hnd)
      simpa using this
    rw [hgk]
    apply filterMap_map_pn
    intro p hp
    rw [groupOf_of_nodup l hnd p hp]
    rfl

/-- C3: deduplication is idempotent and never increases the record
count. -/
theorem deduplicate_parts_idempotent (parts : List Part) :
    deduplicate_parts (deduplicate_parts parts) = deduplicate_parts parts ∧
    (deduplicate_parts parts).length ≤ parts.length := by
  constructor
  · apply deduplicate_parts_of_nodup
    rw [deduplicate_parts_map_pn]
    exact groupKeys_nodup parts
  · exact deduplicate_parts_length parts

/-- The two records of the tie-break example from the specification:
identifier `6000-487`, description length 5 + category length 0 against
description length 3 + category length 10. -/
def tieFirst : Part := { part_number := "6000-487".data, description := "PumpX".data }

def tieSecond : Part :=
  { part_number := "6000-487".data, description := "Pum".data,
    category := "Spa Access".data }

/-- C2: deduplication groups records by identifier (one output record per
key, in first-occurrence order), singleton groups pass through unchanged,
a group of two or more keeps exactly the record maximising
description length + category length with ties resolved to the
first-encountered record, and on the concrete pair from the specification
the second record (total 13 over 5) is kept. -/
theorem deduplicate_parts_selection :
    (∀ parts : List Part,
      (deduplicate_parts parts).map Part.part_number = groupKeys parts) ∧
    (∀ (parts : List Part) (k : List Char) (p : Part),
      groupOf parts k = [p] → p ∈ deduplicate_parts parts) ∧
    (∀ (parts : List Part) (k : List Char), k ∈ groupKeys parts →
      2 ≤ (groupOf parts k).length →
      ∃ r, selectBest (groupOf parts k) = some r ∧ r ∈ deduplicate_parts parts ∧
        FirstMax (groupOf parts k) r) ∧
    deduplicate_parts [tieFirst, tieSecond] = [tieSecond] := by
  refine ⟨deduplicate_parts_map_pn, ?_, ?_, by decide⟩
  · intro parts k p hgroup
    have hpmem : p ∈ parts := by
      have : p ∈ groupOf parts k := by rw [hgroup]; simp
      exact (mem_groupOf.mp this).1
    have hpk : p.part_number = k := by
      have : p ∈ groupOf parts k := by rw [hgroup]; simp
      exact (mem_groupOf.mp this).2
    have hkmem : k ∈ groupKeys parts := mem_groupKeys.mpr ⟨p, hpmem, hpk⟩
    have hparts : parts ≠ [] := by
      intro h
      subst h
      exact absurd hpmem (List.not_mem_nil p)
    unfold deduplicate_parts
    rw [if_neg hparts]
    rw [List.mem_filterMap]
    exact ⟨k, hkmem, by rw [hgroup]; rfl⟩
  · intro parts k hk hlen
    have hne : groupOf parts k ≠ [] := by
      intro h
      rw [h] at hlen
      simp at hlen
    obtain ⟨r, hr, hrmem, hfm⟩ := selectBest_of_ne_nil _ hne
    have hparts : parts ≠ [] := by
      intro h
      subst h
      simp [groupOf] at hne
    refine ⟨r, hr, ?_, hfm⟩
    unfold deduplicate_parts
    rw [if_neg hparts, List.mem_filterMap]
    exact ⟨k, hk, hr⟩

/-- Witness for `deduplicate_parts_selection`: a singleton group passes
through, and the concrete tie-break pair keeps the second record. -/
theorem deduplicate_parts_selection_witness :
    tieFirst ∈ deduplicate_parts [tieFirst] ∧
    deduplicate_parts [tieFirst, tieSecond] = [tieSecond] :=
  ⟨deduplicate_parts_selection.2.1 [tieFirst] "6000-487".data tieFirst (by decide),
    deduplicate_parts_selection.2.2.2⟩

/-!
## Lemmas about the price-table parser
-/

lemma ratOfNumStr_nonneg (l : List Char) : 0 ≤ ratOfNumStr l := by
  unfold ratOfNumStr
  cases h : l.dropWhile fun c => c ≠ '.' with
  | nil =>
    simp only []
    positivity
  | cons d fp =>
    simp only []
    rw [Rat.mkRat_eq_div]
    positivity

/-- C4: the price parser returns absence when the table has fewer than two
rows, when no header cell contains both `net` and `price`
(case-insensitively), or when the selected cell's text has no numeric
match; otherwise it returns the decimal value of the leftmost numeric match
of the first data row's cell in the matched column (commas and currency
symbols stripped), which is non-negative.  The two concrete tables from the
specification behave as stated. -/
theorem parse_price_from_table_spec :
    (∀ rows : List TRow, rows.length < 2 → parse_price_from_table rows = none) ∧
    (∀ (r0 r1 : TRow) (rest : List TRow),
      (∀ h ∈ r0.th, (substrIn "net".data (pyLower (pyStrip h)) &&
          substrIn "price".data (pyLower (pyStrip h))) = false) →
      parse_price_from_table (r0 :: r1 :: rest) = none) ∧
    (∀ (r0 r1 : TRow) (rest : List TRow) (i : Nat) (cell : List Char),
      (r0.th.map fun h => pyLower (pyStrip h)).findIdx? (fun h =>
          substrIn "net".data h && substrIn "price".data h) = some i →
      r1.td[i]? = some cell →
      searchNumeric (dropCommas (pyStrip cell)) = none →
      parse_price_from_table (r0 :: r1 :: rest) = none) ∧
    (∀ (r0 r1 : TRow) (rest : List TRow) (i : Nat) (cell m : List Char),
      (r0.th.map fun h => pyLower (pyStrip h)).findIdx? (fun h =>
          substrIn "net".data h && substrIn "price".data h) = some i →
      r1.td[i]? = some cell →
      searchNumeric (dropCommas (pyStrip cell)) = some m →
      parse_price_from_table (r0 :: r1 :: rest) = some (ratOfNumStr m) ∧
        0 ≤ ratOfNumStr m) ∧
    parse_price_from_table
      [⟨["Part".data, "Net Unit Price".data], []⟩,
       ⟨[], ["6000-487".data, "$123.45".data]⟩] = some (mkRat 12345 100) ∧
    parse_price_from_table [⟨["Part".data, "Net Unit Price".data], []⟩] = none := by
  refine ⟨?_, ?_, ?_, ?_, by decide, by decide⟩
  · intro rows hlen
    match rows with
    | [] => rfl
    | [r] => rfl
    | r0 :: r1 :: rest => exact absurd hlen (by simp)
  · intro r0 r1 rest hhead
    have hfind : (r0.th.map fun h => pyLower (pyStrip h)).findIdx? (fun h =>
        substrIn "net".data h && substrIn "price".data h) = none := by
      rw [List.findIdx?_eq_none_iff]
      intro x hx
      obtain ⟨h, hh, rfl⟩ := List.mem_map.mp hx
      exact hhead h hh
    simp only [parse_price_from_table]
    rw [hfind]
  · intro r0 r1 rest i cell hfind hcell hsearch
    have hlt : i < r1.td.length := (List.getElem?_eq_some_iff.mp hcell).1
    simp only [parse_price_from_table]
    rw [hfind]
    simp only []
    rw [if_neg (by omega : ¬r1.td.length ≤ i)]
    rw [List.getD_eq_getElem?_getD, hcell]
    simp [hsearch]
  · intro r0 r1 rest i cell m hfind hcell hsearch
    have hlt : i < r1.td.length := (List.getElem?_eq_some_iff.mp hcell).1
    refine ⟨?_, ratOfNumStr_nonneg m⟩
    simp only [parse_price_from_table]
    rw [hfind]
    simp only []
    rw [if_neg (by omega : ¬r1.td.length ≤ i)]
    rw [List.getD_eq_getElem?_getD, hcell]
    simp [hsearch]

/-- Witness for `parse_price_from_table_spec`: the concrete lookup table
from the specification. -/
theorem parse_price_from_table_spec_witness :
    parse_price_from_table
      [⟨["Part".data, "Net Unit Price".data], []⟩,
       ⟨[], ["6000-487".data, "$123.45".data]⟩] = some (mkRat 12345 100) ∧
    parse_price_from_table [⟨["Part".data, "Net Unit Price".data], []⟩] = none ∧
    parse_price_from_table [] = none :=
  ⟨parse_price_from_table_spec.2.2.2.2.1,
    parse_price_from_table_spec.2.2.2.2.2,
    parse_price_from_table_spec.1 [] (by decide)⟩

/-!
## Lemmas about the persisted-record round trip
-/

lemma digitCh_spec : ∀ n < 10, isDigitCh (digitCh n) = true ∧ chDigit (digitCh n) = n := by
  decide

lemma parse2_pad2 {n : Nat} (h : n ≤ 99) (r : List Char) :
    parse2 (pad2 n ++ r) = some (n, r) := by
  have h1 := digitCh_spec (n / 10) (by omega)
  have h2 := digitCh_spec (n % 10) (by omega)
  show (if isDigitCh (digitCh (n / 10)) && isDigitCh (digitCh (n % 10)) then
      some (10 * chDigit (digitCh (n / 10)) + chDigit (digitCh (n % 10)), r)
    else none) = some (n, r)
  rw [h1.1, h2.1, h1.2, h2.2]
  simp only [Bool.and_self, if_true]
  have hn : 10 * (n / 10) + n % 10 = n := by omega
  rw [hn]

lemma parse4_pad4 {n : Nat} (h : n ≤ 9999) (r : List Char) :
    parse4 (pad4 n ++ r) = some (n, r) := by
  have h1 := digitCh_spec (n / 1000) (by omega)
  have h2 := digitCh_spec (n / 100 % 10) (by omega)
  have h3 := digitCh_spec (n / 10 % 10) (by omega)
  have h4 := digitCh_spec (n % 10) (by omega)
  show (if isDigitCh (digitCh (n / 1000)) && isDigitCh (digitCh (n / 100 % 10)) &&
      isDigitCh (digitCh (n / 10 % 10)) && isDigitCh (digitCh (n % 10)) then
      some (1000 * chDigit (digitCh (n / 1000)) + 100 * chDigit (digitCh (n / 100 % 10)) +
        10 * chDigit (digitCh (n / 10 % 10)) + chDigit (digitCh (n % 10)), r)
    else none) = some (n, r)
  rw [h1.1, h2.1, h3.1, h4.1, h1.2, h2.2, h3.2, h4.2]
  simp only [Bool.and_self, if_true]
  have hn : 1000 * (n / 1000) + 100 * (n / 100 % 10) + 10 * (n / 10 % 10) + n % 10 = n := by
    omega
  rw [hn]

lemma parse6_pad6 {n : Nat} (h : n ≤ 999999) (r : List Char) :
    parse6 (pad6 n ++ r) = some (n, r) := by
  have h1 := digitCh_spec (n / 100000) (by omega)
  have h2 := digitCh_spec (n / 10000 % 10) (by omega)
  have h3 := digitCh_spec (n / 1000 % 10) (by omega)
  have h4 := digitCh_spec (n / 100 % 10) (by omega)
  have h5 := digitCh_spec (n / 10 % 10) (by omega)
  have h6 := digitCh_spec (n % 10) (by omega)
  show (if isDigitCh (digitCh (n / 100000)) && isDigitCh (digitCh (n / 10000 % 10)) &&
      isDigitCh (digitCh (n / 1000 % 10)) && isDigitCh (digitCh (n / 100 % 10)) &&
      isDigitCh (digitCh (n / 10 % 10)) && isDigitCh (digitCh (n % 10)) then
      some (100000 * chDigit (digitCh (n / 100000)) +
        10000 * chDigit (digitCh (n / 10000 % 10)) +
        1000 * chDigit (digitCh (n / 1000 % 10)) + 100 * chDigit (digitCh (n / 100 % 10)) +
        10 * chDigit (digitCh (n / 10 % 10)) + chDigit (digitCh (n % 10)), r)
    else none) = some (n, r)
  rw [h1.1, h2.1, h3.1, h4.1, h5.1, h6.1, h1.2, h2.2, h3.2, h4.2, h5.2, h6.2]
  simp only [Bool.and_self, if_true]
  have hn : 100000 * (n / 100000) + 10000 * (n / 10000 % 10) + 1000 * (n / 1000 % 10) +
      100 * (n / 100 % 10) + 10 * (n / 10 % 10) + n % 10 = n := by
    omega
  rw [hn]

lemma expectCh_cons (c : Char) (r : List Char) : expectCh c (c :: r) = some r := by
  simp [expectCh]

/-- Model of `fromisoformat` inverts `isoformat` on every constructible datetime. -/
lemma fromisoformat_isoformat (d : DateTime) (hv : d.Valid) :
    fromisoformat d.isoformat = some d := by
  obtain ⟨y, mo, da, hh, mi, ss, us⟩ := d
  obtain ⟨h1, h2, h3, h4, h5, h6, h7, h8, h9, h10⟩ := hv
  simp only [DateTime.isoformat] at *
  by_cases hus : us = 0
  · subst hus
    simp only [if_pos rfl, List.append_nil]
    unfold fromisoformat
    simp only [parse4_pad4 (show y ≤ 9999 by omega), expectCh_cons,
      parse2_pad2 (show mo ≤ 99 by omega), parse2_pad2 (show da ≤ 99 by omega),
      parse2_pad2 (show hh ≤ 99 by omega), parse2_pad2 (show mi ≤ 99 by omega),
      parse2_pad2 (show ss ≤ 99 by omega)]
    simp
  · rw [if_neg hus]
    unfold fromisoformat
    have h6p : parse6 (pad6 us) = some (us, []) := by
      have := parse6_pad6 (show us ≤ 999999 by omega) []
      simpa using this
    simp only [parse4_pad4 (show y ≤ 9999 by omega), expectCh_cons,
      parse2_pad2 (show mo ≤ 99 by omega), parse2_pad2 (show da ≤ 99 by omega),
      parse2_pad2 (show hh ≤ 99 by omega), parse2_pad2 (show mi ≤ 99 by omega),
      parse2_pad2 (show ss ≤ 99 by omega), h6p]

lemma statusOfValue_statusValue (st : PartStatus) :
    statusOfValue (statusValue st) = some st := by
  cases st <;> decide

lemma isoformat_ne_nil (d : DateTime) : d.isoformat ≠ [] := by
  obtain ⟨y, mo, da, hh, mi, ss, us⟩ := d
  simp [DateTime.isoformat, pad4]

/-- C7: exporting a record through `Part.to_dict` and reloading it through
the `load_previous_parts` record loader reconstructs identifier,
description, category, price, status, source catalog exactly, and the
last-price-update timestamp exactly (in particular to second precision),
provided any stored timestamp is a constructible datetime. -/
theorem part_roundtrip (p : Part)
    (hts : ∀ dt, p.last_price_update = some dt → dt.Valid) :
    (load_part_from_dict p.to_dict).map Part.part_number = some p.part_number ∧
    (load_part_from_dict p.to_dict).map Part.description = some p.description ∧
    (load_part_from_dict p.to_dict).map Part.category = some p.category ∧
    (load_part_from_dict p.to_dict).map Part.price = some p.price ∧
    (load_part_from_dict p.to_dict).map Part.status = some p.status ∧
    (load_part_from_dict p.to_dict).map Part.source_catalog = some p.source_catalog ∧
    (load_part_from_dict p.to_dict).map Part.last_price_update =
      some p.last_price_update := by
  have hload : load_part_from_dict p.to_dict = some
      { part_number := p.part_number, description := p.description,
        category := p.category, page_reference := p.page_reference,
        price := p.price, source_catalog := p.source_catalog, vendor := p.vendor,
        sku := if p.sku = [] then p.part_number else p.sku, status := p.status,
        last_price_update := p.last_price_update } := by
    unfold load_part_from_dict Part.to_dict
    rw [statusOfValue_statusValue]
    cases hlpu : p.last_price_update with
    | none => simp
    | some dt =>
      have hvalid := hts dt hlpu
      simp [Option.map_some', isoformat_ne_nil dt, fromisoformat_isoformat dt hvalid]
  rw [hload]
  exact ⟨rfl, rfl, rfl, rfl, rfl, rfl, rfl⟩

/-- A concrete record with a microsecond-precision timestamp. -/
def roundtripSample : Part :=
  { part_number := "6000-487".data, description := "Pump Motor Assembly".data,
    category := "Pumps".data, page_reference := 12, status := .priced,
    price := some (mkRat 12345 100),
    last_price_update := some ⟨2024, 3, 7, 15, 4, 9, 123456⟩,
    source_catalog := "sundance_2015".data, sku := [] }

/-- Witness for `part_roundtrip` on `roundtripSample`. -/
theorem part_roundtrip_witness :
    (load_part_from_dict roundtripSample.to_dict).map Part.last_price_update =
      some (some ⟨2024, 3, 7, 15, 4, 9, 123456⟩) ∧
    (load_part_from_dict roundtripSample.to_dict).map Part.part_number =
      some "6000-487".data :=
  ⟨(part_roundtrip roundtripSample
      (by intro dt hdt; cases hdt; decide)).2.2.2.2.2.2,
    (part_roundtrip roundtripSample
      (by intro dt hdt; cases hdt; decide)).1⟩

/-!
## Lemmas about catalog-version resolution
-/

/-- Model of `v` is a run of exactly four decimal digits. -/
def fourDigits (v : List Char) : Bool := v.length == 4 && v.all isDigitCh

lemma ffd_cons (a : Char) (s : List Char) :
    firstFourDigits (a :: s) =
      if fourDigits ((a :: s).take 4) then some ((a :: s).take 4)
      else firstFourDigits s := by
  cases s with
  | nil => simp [firstFourDigits, fourDigits]
  | cons b u =>
    cases u with
    | nil => simp [firstFourDigits, fourDigits]
    | cons c w =>
      cases w with
      | nil => simp [firstFourDigits, fourDigits]
      | cons d rest =>
        show (if isDigitCh a && isDigitCh b && isDigitCh c && isDigitCh d then
            some [a, b, c, d] else firstFourDigits (b :: c :: d :: rest)) = _
        have hcond : fourDigits ((a :: b :: c :: d :: rest).take 4) =
            (isDigitCh a && isDigitCh b && isDigitCh c && isDigitCh d) := by
          show fourDigits [a, b, c, d] = _
          simp [fourDigits, Bool.and_assoc]
        rw [hcond]
        have htake : (a :: b :: c :: d :: rest).take 4 = [a, b, c, d] := rfl
        rw [htake]

lemma ffd_none_spec :
    ∀ s : List Char, firstFourDigits s = none →
      ∀ i : Nat, fourDigits ((s.drop i).take 4) = false := by
  intro s
  induction s with
  | nil => intro _ i; simp [fourDigits]
  | cons a s ih =>
    intro h i
    rw [ffd_cons] at h
    by_cases hc : fourDigits ((a :: s).take 4)
    · rw [if_pos hc] at h
      exact absurd h (by simp)
    · rw [if_neg hc] at h
      cases i with
      | zero => simpa using hc
      | succ j =>
        rw [List.drop_succ_cons]
        exact ih h j

lemma ffd_some_spec :
    ∀ s v : List Char, firstFourDigits s = some v →
      ∃ i : Nat, v = (s.drop i).take 4 ∧ fourDigits v = true ∧
        ∀ j < i, fourDigits ((s.drop j).take 4) = false := by
  intro s
  induction s with
  | nil => intro v hv; exact absurd hv (by simp [firstFourDigits])
  | cons a s ih =>
    intro v hv
    rw [ffd_cons] at hv
    by_cases hc : fourDigits ((a :: s).take 4)
    · rw [if_pos hc] at hv
      refine ⟨0, ?_, ?_, by omega⟩
      · rw [List.drop_zero]
        exact (Option.some.inj hv).symm
      · rw [← Option.some.inj hv]
        exact hc
    · rw [if_neg hc] at hv
      obtain ⟨i, hvi, hfd, hmin⟩ := ih v hv
      refine ⟨i + 1, by simpa using hvi, hfd, ?_⟩
      intro j hj
      cases j with
      | zero => simpa using hc
      | succ j' =>
        rw [List.drop_succ_cons]
        exact hmin j' (by omega)

lemma lastCatalogEnd_spec {seg : List Char} {e : Nat}
    (h : lastCatalogEnd seg = some e) :
    ∃ i : Nat, e = i + 7 ∧ i + 7 ≤ seg.length ∧
      pyLower ((seg.drop i).take 7) = "catalog".data := by
  unfold lastCatalogEnd at h
  cases hlast : (((List.range seg.length).filter fun i =>
      pyLower ((seg.drop i).take 7) = "catalog".data)).getLast? with
  | none => rw [hlast] at h; exact absurd h (by simp)
  | some i =>
    rw [hlast] at h
    have hmem := List.mem_of_mem_getLast? hlast
    rw [List.mem_filter] at hmem
    have hrange := List.mem_range.mp hmem.1
    have hcat : pyLower ((seg.drop i).take 7) = "catalog".data := by
      have := hmem.2
      simpa using this
    have hlen7 : ((seg.drop i).take 7).length = 7 := by
      have hc := congrArg List.length hcat
      rw [show (pyLower ((seg.drop i).take 7)).length =
        ((seg.drop i).take 7).length from List.length_map _ _] at hc
      rw [hc]
      rfl
    have hbound : i + 7 ≤ seg.length := by
      rw [List.length_take, List.length_drop] at hlen7
      omega
    have he : e = i + 7 := by
      simpa using h.symm
    exact ⟨i, he, hbound, hcat⟩

lemma svc_some_spec :
    ∀ t v : List Char, searchVersionCatalog t = some v →
      v <:+: t ∧ 11 ≤ v.length ∧ (∀ c ∈ v.take 4, isDigitCh c = true) ∧
        pyLower (v.drop (v.length - 7)) = "catalog".data ∧ '\n' ∉ v := by
  intro t
  induction t with
  | nil => intro v hv; exact absurd hv (by simp [searchVersionCatalog])
  | cons a s ih =>
    intro v hv
    cases s with
    | nil => exact absurd hv (by simp [searchVersionCatalog])
    | cons b u =>
      cases u with
      | nil => exact absurd hv (by simp [searchVersionCatalog])
      | cons c w =>
        cases w with
        | nil => exact absurd hv (by simp [searchVersionCatalog])
        | cons d rest =>
          rw [show searchVersionCatalog (a :: b :: c :: d :: rest) =
            (if isDigitCh a && isDigitCh b && isDigitCh c && isDigitCh d then
              match lastCatalogEnd (rest.takeWhile fun ch => ch ≠ '\n') with
              | some e =>
                  some ([a, b, c, d] ++ (rest.takeWhile fun ch => ch ≠ '\n').take e)
              | none => searchVersionCatalog (b :: c :: d :: rest)
            else searchVersionCatalog (b :: c :: d :: rest)) from rfl] at hv
          by_cases hd : isDigitCh a && isDigitCh b && isDigitCh c && isDigitCh d
          · rw [if_pos hd] at hv
            cases he : lastCatalogEnd (rest.takeWhile fun ch => ch ≠ '\n') with
            | none =>
              rw [he] at hv
              obtain ⟨hinf, hrest⟩ := And.intro (ih v hv).1 (ih v hv).2
              exact ⟨List.infix_cons hinf, hrest⟩
            | some e =>
              rw [he] at hv
              obtain ⟨i, hei, hbound, hcat⟩ := lastCatalogEnd_spec he
              set seg := rest.takeWhile fun ch => ch ≠ '\n' with hseg
              have hv' : v = [a, b, c, d] ++ seg.take e := (Option.some.inj hv).symm
              have htlen : (seg.take e).length = e := by
                rw [List.length_take]
                omega
              have hvlen : v.length = 4 + e := by
                rw [hv', List.length_append, htlen]
                rfl
              obtain ⟨ha, hb, hc2, hd2⟩ : isDigitCh a = true ∧ isDigitCh b = true ∧
                  isDigitCh c = true ∧ isDigitCh d = true := by
                simpa [Bool.and_eq_true, and_assoc] using hd
              refine ⟨?_, ?_, ?_, ?_, ?_⟩
              · refine ⟨[], seg.drop e ++ rest.dropWhile fun ch => ch ≠ '\n', ?_⟩
                rw [List.nil_append, hv']
                have h1 : seg.take e ++ (seg.drop e ++
                    rest.dropWhile fun ch => ch ≠ '\n') = rest := by
                  rw [← List.append_assoc, List.take_append_drop]
                  exact List.takeWhile_append_dropWhile _ _
                rw [List.append_assoc, h1]
                rfl
              · omega
              · intro x hx
                rw [hv'] at hx
                have hx4 : x = a ∨ x = b ∨ x = c ∨ x = d := by
                  have h4 : ([a, b, c, d] ++ seg.take e).take 4 = [a, b, c, d] :=
                    List.take_left' rfl
                  rw [h4] at hx
                  simpa using hx
                rcases hx4 with rfl | rfl | rfl | rfl
                · exact ha
                · exact hb
                · exact hc2
                · exact hd2
              · rw [hvlen, hv']
                have h1 : 4 + e - 7 = 4 + i := by omega
                rw [h1, List.drop_append_eq_append_drop]
                have h2 : List.drop (4 + i) [a, b, c, d] = [] := by
                  apply List.drop_eq_nil_of_le
                  simp
                rw [h2, List.nil_append]
                have h3 : 4 + i - List.length [a, b, c, d] = i := by simp
                rw [h3]
                have h4 : List.drop i (seg.take e) = (seg.drop i).take 7 := by
                  rw [List.drop_take, hei]
                  congr 1
                  omega
                rw [h4]
                exact hcat
              · rw [hv']
                intro hmem
                rcases List.mem_append.mp hmem with h | h
                · have hx4 : '\n' = a ∨ '\n' = b ∨ '\n' = c ∨ '\n' = d := by
                    simpa using h
                  rcases hx4 with h | h | h | h
                  · rw [← h] at ha; exact absurd ha (by decide)
                  · rw [← h] at hb; exact absurd hb (by decide)
                  · rw [← h] at hc2; exact absurd hc2 (by decide)
                  · rw [← h] at hd2; exact absurd hd2 (by decide)
                · have := List.mem_takeWhile_imp (List.mem_of_mem_take h)
                  simp at this
          · rw [if_neg hd] at hv
            obtain ⟨hinf, hrest⟩ := And.intro (ih v hv).1 (ih v hv).2
            exact ⟨List.infix_cons hinf, hrest⟩

/-- C8: catalog-version resolution is a total cascade: the first run of
four consecutive digits in the filename stem wins; when the stem has no
such run the page-1 text is searched for four digits followed (within one
line, case-insensitively) by `catalog`; and when that also fails, or no
page text is available, the result is the literal `Unknown`. -/
theorem extract_catalog_version_spec :
    (∀ (stem : List Char) (page1 : Option (List Char)) (v : List Char),
      firstFourDigits stem = some v →
      extract_catalog_version stem page1 = v ∧ fourDigits v = true ∧
        ∃ i : Nat, v = (stem.drop i).take 4 ∧
          ∀ j < i, fourDigits ((stem.drop j).take 4) = false) ∧
    (∀ stem pre v post : List Char, stem = pre ++ v ++ post → fourDigits v = true →
      firstFourDigits stem ≠ none) ∧
    (∀ stem : List Char, firstFourDigits stem = none →
      extract_catalog_version stem none = "Unknown".data) ∧
    (∀ stem t : List Char, firstFourDigits stem = none → searchVersionCatalog t = none →
      extract_catalog_version stem (some t) = "Unknown".data) ∧
    (∀ stem t v : List Char, firstFourDigits stem = none →
      searchVersionCatalog t = some v →
      extract_catalog_version stem (some t) = v ∧ v <:+: t ∧ 11 ≤ v.length ∧
        (∀ c ∈ v.take 4, isDigitCh c = true) ∧
        pyLower (v.drop (v.length - 7)) = "catalog".data ∧ '\n' ∉ v) := by
  refine ⟨?_, ?_, ?_, ?_, ?_⟩
  · intro stem page1 v hv
    obtain ⟨i, hvi, hfd, hmin⟩ := ffd_some_spec stem v hv
    refine ⟨?_, hfd, i, hvi, hmin⟩
    unfold extract_catalog_version
    rw [hv]
  · intro stem pre v post hdec hfd hnone
    have h4 : v.length = 4 := by
      unfold fourDigits at hfd
      rw [Bool.and_eq_true] at hfd
      simpa using hfd.1
    have := ffd_none_spec stem hnone pre.length
    rw [hdec, List.append_assoc, List.drop_append_eq_append_drop, List.drop_length,
      List.nil_append, Nat.sub_self, List.drop_zero] at this
    rw [List.take_append_eq_append_take, List.take_of_length_le (by omega),
      show v.length = 4 from h4, Nat.sub_self, List.take_zero, List.append_nil] at this
    rw [hfd] at this
    exact absurd this (by simp)
  · intro stem h
    unfold extract_catalog_version
    rw [h]
  · intro stem t h hsvc
    unfold extract_catalog_version
    simp only [h, hsvc]
  · intro stem t v h hsvc
    have hspec := svc_some_spec t v hsvc
    refine ⟨?_, hspec.1, hspec.2.1, hspec.2.2.1, hspec.2.2.2.1, hspec.2.2.2.2⟩
    unfold extract_catalog_version
    simp only [h, hsvc]

/-- Witness for `extract_catalog_version_spec`: a stem with a digit run, a
stem without one, and a page-1 fallback. -/
theorem extract_catalog_version_spec_witness :
    extract_catalog_version "sundance_2015_parts".data none = "2015".data ∧
    extract_catalog_version "parts".data none = "Unknown".data ∧
    extract_catalog_version "parts".data (some "the 2015 Spring catalog".data) =
      "2015 Spring catalog".data :=
  ⟨(extract_catalog_version_spec.1 "sundance_2015_parts".data none "2015".data
      (by decide)).1,
    extract_catalog_version_spec.2.2.1 "parts".data (by decide),
    (extract_catalog_version_spec.2.2.2.2 "parts".data
      "the 2015 Spring catalog".data "2015 Spring catalog".data
      (by decide) (by decide)).1⟩

/-!
## The record-set export
-/

/-- A record in `priced` status, eligible for the Lou export. -/
def pricedSample : Part := { part_number := "6000-487".data, status := .priced }

/-- C9 counterexample: the export's column list is not the
specification's list (it leads with `sku` and contains no
`page_reference` column), and a freshly extracted record produces no row
at all, so the export is not one row per record. -/
theorem lou_export_claim_cex :
    LOU_CSV_COLUMNS ≠ spec_lou_columns ∧
    "page_reference".data ∉ LOU_CSV_COLUMNS ∧
    generate_lou_rows [{ part_number := "6000-487".data }] = [] ∧
    ([{ part_number := "6000-487".data }] : List Part).length = 1 := by
  decide

/-- C9 (amended): the export's header is exactly
`sku, part_number, description, category, unit_price, last_updated,
source_catalog, vendor, status`, byte-for-byte in that order, and the data
rows are exactly one row per record whose status is `priced` or `active`,
each row prepared by `prepare_lou_csv_row`. -/
theorem lou_export_spec :
    LOU_CSV_COLUMNS = ["sku".data, "part_number".data, "description".data,
      "category".data, "unit_price".data, "last_updated".data, "source_catalog".data,
      "vendor".data, "status".data] ∧
    (∀ parts : List Part,
      (generate_lou_rows parts).length = (parts.filter lou_ready).length ∧
      (∀ p ∈ parts, lou_ready p = true →
        prepare_lou_csv_row p ∈ generate_lou_rows parts) ∧
      (∀ r ∈ generate_lou_rows parts, ∃ p, p ∈ parts ∧ lou_ready p = true ∧
        r = prepare_lou_csv_row p)) := by
  refine ⟨rfl, ?_⟩
  intro parts
  refine ⟨by simp [generate_lou_rows], ?_, ?_⟩
  · intro p hp hready
    unfold generate_lou_rows
    exact List.mem_map_of_mem _ (List.mem_filter.mpr ⟨hp, hready⟩)
  · intro r hr
    unfold generate_lou_rows at hr
    obtain ⟨p, hp, rfl⟩ := List.mem_map.mp hr
    rw [List.mem_filter] at hp
    exact ⟨p, hp.1, hp.2, rfl⟩

/-- Witness for `lou_export_spec`: a priced record contributes its row. -/
theorem lou_export_spec_witness :
    prepare_lou_csv_row pricedSample ∈ generate_lou_rows [pricedSample] :=
  (lou_export_spec.2 [pricedSample]).2.1 pricedSample (by simp) (by decide)

/-!
## Lemmas about the identifier matcher
-/

lemma word_of_digit {c : Char} (h : isDigitCh c = true) : isWordCh c = true := by
  unfold isWordCh
  rw [h]
  simp

lemma word_of_upper {c : Char} (h : isUpperCh c = true) : isWordCh c = true := by
  unfold isWordCh
  rw [h]
  simp

lemma upper_not_digit {c : Char} (h1 : isUpperCh c = true) (h2 : isDigitCh c = true) :
    False := by
  unfold isUpperCh at h1
  unfold isDigitCh at h2
  simp only [Bool.and_eq_true, decide_eq_true_eq] at h1 h2
  omega

lemma patLen_ge_seven (k : PatRule) : 7 ≤ patLen k := by
  cases k <;> decide

lemma hyphenPos_ne_zero (k : PatRule) : hyphenPos k ≠ 0 := by
  cases k <;> decide

lemma charRule_word {k : PatRule} {i : Nat} {c : Char} (h : charRule k i c = true)
    (hne : i ≠ hyphenPos k) : isWordCh c = true := by
  cases k with
  | dddd_ddd =>
    simp only [charRule] at h
    simp only [hyphenPos] at hne
    rw [if_neg hne] at h
    exact word_of_digit h
  | dddd_dd =>
    simp only [charRule] at h
    simp only [hyphenPos] at hne
    rw [if_neg hne] at h
    exact word_of_digit h
  | letter_dddd_ddd =>
    simp only [charRule] at h
    simp only [hyphenPos] at hne
    by_cases h0 : i = 0
    · rw [if_pos h0] at h
      exact word_of_upper h
    · rw [if_neg h0, if_neg hne] at h
      exact word_of_digit h

lemma charRule_hyphen_of_nonword {k : PatRule} {i : Nat} {c : Char}
    (h : charRule k i c = true) (hw : isWordCh c = false) : i = hyphenPos k := by
  by_contra hne
  rw [charRule_word h hne] at hw
  exact absurd hw (by simp)

lemma shapeMatch_length {k : PatRule} {l : List Char} (h : shapeMatch k l = true) :
    l.length = patLen k := by
  unfold shapeMatch at h
  rw [Bool.and_eq_true, beq_iff_eq] at h
  exact h.1

lemma shapeMatch_class {k : PatRule} {l : List Char} (h : shapeMatch k l = true)
    {i : Nat} {c : Char} (hget : l[i]? = some c) : charRule k i c = true := by
  have hlen := shapeMatch_length h
  unfold shapeMatch at h
  rw [Bool.and_eq_true] at h
  have hall := h.2
  rw [List.all_eq_true] at hall
  have hi : i < patLen k := by
    have := (List.getElem?_eq_some_iff.mp hget).1
    omega
  have := hall i (List.mem_range.mpr hi)
  rw [hget] at this
  exact this

lemma shape_head {k : PatRule} {core : List Char} (h : shapeMatch k core = true) :
    ∃ c0 rest, core = c0 :: rest ∧ isWordCh c0 = true := by
  have hlen := shapeMatch_length h
  have h7 := patLen_ge_seven k
  cases core with
  | nil => simp at hlen; omega
  | cons c0 rest =>
    refine ⟨c0, rest, rfl, ?_⟩
    have hc := shapeMatch_class h (show (c0 :: rest)[0]? = some c0 by simp)
    exact charRule_word hc (Ne.symm (hyphenPos_ne_zero k))

lemma matchesAt_of {k : PatRule} {core post : List Char} (hcore : shapeMatch k core = true)
    (hpost : boundaryEnd post = true) : matchesAt k (core ++ post) = true := by
  unfold matchesAt
  rw [List.take_left' (shapeMatch_length hcore), List.drop_left' (shapeMatch_length hcore),
    hcore, hpost]
  rfl

lemma matchesAt_shape {k : PatRule} {s : List Char} (h : matchesAt k s = true) :
    shapeMatch k (s.take (patLen k)) = true := by
  unfold matchesAt at h
  rw [Bool.and_eq_true] at h
  exact h.1

lemma matchesAt_boundary {k : PatRule} {s : List Char} (h : matchesAt k s = true) :
    boundaryEnd (s.drop (patLen k)) = true := by
  unfold matchesAt at h
  rw [Bool.and_eq_true] at h
  exact h.2

lemma charRule_toNat_ge {k : PatRule} {i : Nat} {c : Char} (h : charRule k i c = true) :
    45 ≤ c.toNat := by
  cases k with
  | dddd_ddd =>
    simp only [charRule] at h
    by_cases h4 : i = 4
    · rw [if_pos h4, beq_iff_eq] at h
      rw [h]
      decide
    · rw [if_neg h4] at h
      unfold isDigitCh at h
      simp only [Bool.and_eq_true, decide_eq_true_eq] at h
      omega
  | dddd_dd =>
    simp only [charRule] at h
    by_cases h4 : i = 4
    · rw [if_pos h4, beq_iff_eq] at h
      rw [h]
      decide
    · rw [if_neg h4] at h
      unfold isDigitCh at h
      simp only [Bool.and_eq_true, decide_eq_true_eq] at h
      omega
  | letter_dddd_ddd =>
    simp only [charRule] at h
    by_cases h0 : i = 0
    · rw [if_pos h0] at h
      unfold isUpperCh at h
      simp only [Bool.and_eq_true, decide_eq_true_eq] at h
      omega
    · rw [if_neg h0] at h
      by_cases h5 : i = 5
      · rw [if_pos h5, beq_iff_eq] at h
        rw [h]
        decide
      · rw [if_neg h5] at h
        unfold isDigitCh at h
        simp only [Bool.and_eq_true, decide_eq_true_eq] at h
        omega

lemma space_toNat_le {c : Char} (h : isSpaceCh c = true) : c.toNat ≤ 32 := by
  unfold isSpaceCh at h
  simp only [Bool.or_eq_true, beq_iff_eq] at h
  rcases h with ((((rfl | rfl) | rfl) | rfl) | rfl) | rfl <;> decide

lemma dropWhile_eq_self_of {p : Char → Bool} {l : List Char}
    (h : ∀ c ∈ l, p c = false) : l.dropWhile p = l := by
  cases l with
  | nil => rfl
  | cons a t =>
    rw [List.dropWhile_cons, if_neg (by rw [h a (by simp)]; simp)]

lemma pyStrip_eq_self {m : List Char} (h : ∀ c ∈ m, isSpaceCh c = false) :
    pyStrip m = m := by
  unfold pyStrip
  rw [dropWhile_eq_self_of h,
    dropWhile_eq_self_of fun c hc => h c (List.mem_reverse.mp hc),
    List.reverse_reverse]

lemma shape_not_space {k : PatRule} {m : List Char} (h : shapeMatch k m = true) :
    ∀ c ∈ m, isSpaceCh c = false := by
  intro c hc
  obtain ⟨i, hi⟩ := List.mem_iff_getElem?.mp hc
  have hclass := shapeMatch_class h hi
  have h45 := charRule_toNat_ge hclass
  by_contra hsp
  rw [Bool.not_eq_false] at hsp
  have := space_toNat_le hsp
  omega

lemma shape_strip {k : PatRule} {m : List Char} (h : shapeMatch k m = true) :
    pyStrip m = m :=
  pyStrip_eq_self (shape_not_space h)

lemma shape_validate {k : PatRule} {m : List Char} (h : shapeMatch k m = true) :
    validate_part_number m = true := by
  have hlen := shapeMatch_length h
  have h7 := patLen_ge_seven k
  have hne : m ≠ [] := by
    intro he
    rw [he] at hlen
    simp at hlen
    omega
  unfold validate_part_number
  rw [if_neg ?hcond]
  case hcond =>
    simp only [Bool.or_eq_true, not_or, List.isEmpty_iff, decide_eq_true_eq]
    exact ⟨hne, by omega⟩
  cases k <;> simp [anchoredMatch, h]

lemma boundaryEnd_head {l : List Char} (h : boundaryEnd l = true) {c : Char}
    (hc : l[0]? = some c) : isWordCh c = false := by
  cases l with
  | nil => exact absurd hc (by simp)
  | cons a t =>
    have ha : a = c := by simpa using hc
    unfold boundaryEnd at h
    rw [← ha]
    rw [Bool.not_eq_true'] at h
    exact h

lemma charRule_letter_zero {c : Char}
    (h : charRule .letter_dddd_ddd 0 c = true) : isUpperCh c = true := by
  simpa [charRule] using h

lemma charRule_letter_six {c : Char}
    (h : charRule .letter_dddd_ddd 6 c = true) : isDigitCh c = true := by
  simpa [charRule] using h

/-- A full match of rule `k` starting inside `pre` cannot overlap a
boundary-preceded occurrence of a `k`-shaped `core`: the hyphen position
forces the overlap geometry, and then a character that must be a digit (or
the core's uppercase head) contradicts the match's trailing boundary (or
digit class). -/
lemma no_overlap (k : PatRule) (pre core post : List Char)
    (hpre1 : 1 ≤ pre.length) (hpre2 : pre.length < patLen k)
    (hlast : ∀ c, pre.getLast? = some c → isWordCh c = false)
    (hcore : shapeMatch k core = true)
    (hmatch : matchesAt k (pre ++ (core ++ post)) = true) : False := by
  have hshape := matchesAt_shape hmatch
  have hbe := matchesAt_boundary hmatch
  have hclen := shapeMatch_length hcore
  obtain ⟨c0, hc0⟩ : ∃ c0, pre.getLast? = some c0 := by
    cases hpl : pre.getLast? with
    | none =>
      rw [List.getLast?_eq_none_iff] at hpl
      rw [hpl] at hpre1
      simp at hpre1
    | some c => exact ⟨c, rfl⟩
  have hc0w : isWordCh c0 = false := hlast c0 hc0
  have hpidx : pre[pre.length - 1]? = some c0 := by
    rw [← List.getLast?_eq_getElem?]
    exact hc0
  have hs_idx : (pre ++ (core ++ post))[pre.length - 1]? = some c0 := by
    rw [List.getElem?_append_left (by omega)]
    exact hpidx
  have htake_idx :
      ((pre ++ (core ++ post)).take (patLen k))[pre.length - 1]? = some c0 := by
    rw [List.getElem?_take, if_pos (by omega)]
    exact hs_idx
  have hclass := shapeMatch_class hshape htake_idx
  have hhyph := charRule_hyphen_of_nonword hclass hc0w
  have hp : pre.length = hyphenPos k + 1 := by omega
  cases k with
  | dddd_ddd =>
    have hp5 : pre.length = 5 := by simpa [hyphenPos] using hp
    have hcl8 : core.length = 8 := by simpa [patLen] using hclen
    obtain ⟨c3, hc3⟩ : ∃ c3, core[3]? = some c3 := by
      have h3 : 3 < core.length := by omega
      exact ⟨_, List.getElem?_eq_getElem h3⟩
    have hs8 : (pre ++ (core ++ post))[8]? = some c3 := by
      rw [List.getElem?_append_right (by omega), hp5,
        show (8 : Nat) - 5 = 3 from rfl, List.getElem?_append_left (by omega)]
      exact hc3
    have hd0 : ((pre ++ (core ++ post)).drop (patLen .dddd_ddd))[0]? = some c3 := by
      rw [List.getElem?_drop]
      simpa [patLen] using hs8
    have hword : isWordCh c3 = false := boundaryEnd_head hbe hd0
    have hclass3 := shapeMatch_class hcore hc3
    rw [charRule_word hclass3 (by simp [hyphenPos])] at hword
    exact absurd hword (by simp)
  | dddd_dd =>
    have hp5 : pre.length = 5 := by simpa [hyphenPos] using hp
    have hcl7 : core.length = 7 := by simpa [patLen] using hclen
    obtain ⟨c2, hc2⟩ : ∃ c2, core[2]? = some c2 := by
      have h2c : 2 < core.length := by omega
      exact ⟨_, List.getElem?_eq_getElem h2c⟩
    have hs7 : (pre ++ (core ++ post))[7]? = some c2 := by
      rw [List.getElem?_append_right (by omega), hp5,
        show (7 : Nat) - 5 = 2 from rfl, List.getElem?_append_left (by omega)]
      exact hc2
    have hd0 : ((pre ++ (core ++ post)).drop (patLen .dddd_dd))[0]? = some c2 := by
      rw [List.getElem?_drop]
      simpa [patLen] using hs7
    have hword : isWordCh c2 = false := boundaryEnd_head hbe hd0
    have hclass2 := shapeMatch_class hcore hc2
    rw [charRule_word hclass2 (by simp [hyphenPos])] at hword
    exact absurd hword (by simp)
  | letter_dddd_ddd =>
    have hp6 : pre.length = 6 := by simpa [hyphenPos] using hp
    have hcl9 : core.length = 9 := by simpa [patLen] using hclen
    obtain ⟨cu, hcu⟩ : ∃ cu, core[0]? = some cu := by
      have h0c : 0 < core.length := by omega
      exact ⟨_, List.getElem?_eq_getElem h0c⟩
    have hupper : isUpperCh cu = true :=
      charRule_letter_zero (shapeMatch_class hcore hcu)
    have hs6 : (pre ++ (core ++ post))[6]? = some cu := by
      rw [List.getElem?_append_right (by omega), hp6,
        show (6 : Nat) - 6 = 0 from rfl, List.getElem?_append_left (by omega)]
      exact hcu
    have htake6 :
        ((pre ++ (core ++ post)).take (patLen .letter_dddd_ddd))[6]? = some cu := by
      rw [List.getElem?_take, if_pos (by simp [patLen])]
      exact hs6
    have hdigit : isDigitCh cu = true :=
      charRule_letter_six (shapeMatch_class hshape htake6)
    exact upper_not_digit hupper hdigit

lemma getLast?_drop_ne_nil {l : List Char} {n : Nat} (h : l.drop n ≠ []) :
    (l.drop n).getLast? = l.getLast? := by
  have hn : n < l.length := by
    by_contra hc
    exact h (List.drop_eq_nil_of_le (by omega))
  rw [List.getLast?_eq_getElem?, List.getLast?_eq_getElem?, List.getElem?_drop,
    List.length_drop]
  congr 1
  omega

/-- Completeness of the scanner: a `k`-shaped `core` preceded by a word
boundary (encoded by `prevW`/the last character of `pre`) and followed by
one is always among the emitted matches. -/
lemma scanFuel_finds (k : PatRule) :
    ∀ (fuel : Nat) (pre core post : List Char) (prevW : Bool),
      (pre ++ (core ++ post)).length ≤ fuel →
      shapeMatch k core = true →
      (pre = [] → prevW = false) →
      (∀ c, pre.getLast? = some c → isWordCh c = false) →
      boundaryEnd post = true →
      core ∈ scanFuel k fuel prevW (pre ++ (core ++ post)) := by
  intro fuel
  induction fuel with
  | zero =>
    intro pre core post prevW hlen hcore _ _ _
    have h7 := patLen_ge_seven k
    have hc := shapeMatch_length hcore
    have h0 : (pre ++ (core ++ post)).length =
        pre.length + (core.length + post.length) := by
      simp [List.length_append]
    rw [h0] at hlen
    omega
  | succ f ih =>
    intro pre core post prevW hlen hcore hprev hlast hpost
    cases pre with
    | nil =>
      have hprevF : prevW = false := hprev rfl
      subst hprevF
      obtain ⟨c0, rest, hcq, -⟩ := shape_head hcore
      subst hcq
      rw [List.nil_append]
      have hm : matchesAt k ((c0 :: rest) ++ post) = true := matchesAt_of hcore hpost
      rw [show (c0 :: rest) ++ post = c0 :: (rest ++ post) from rfl]
      simp only [scanFuel]
      rw [if_pos (show (!false && matchesAt k (c0 :: (rest ++ post))) = true by
        rw [Bool.not_false, Bool.true_and]
        exact hm)]
      rw [show c0 :: (rest ++ post) = (c0 :: rest) ++ post from rfl,
        List.take_left' (shapeMatch_length hcore)]
      exact List.mem_cons_self _ _
    | cons a pre' =>
      rw [show (a :: pre') ++ (core ++ post) = a :: (pre' ++ (core ++ post)) from rfl]
      simp only [scanFuel]
      by_cases hguard : (!prevW && matchesAt k (a :: (pre' ++ (core ++ post)))) = true
      · rw [if_pos hguard]
        have hm : matchesAt k ((a :: pre') ++ (core ++ post)) = true := by
          rw [Bool.and_eq_true] at hguard
          exact hguard.2
        have hL7 := patLen_ge_seven k
        have hclen := shapeMatch_length hcore
        rcases Nat.lt_trichotomy (a :: pre').length (patLen k) with hlt | heq | hgt
        · exact (no_overlap k (a :: pre') core post (by simp) hlt hlast hcore hm).elim
        · exfalso
          have hbe := matchesAt_boundary hm
          obtain ⟨c0, rest, hcq, hw0⟩ := shape_head hcore
          have hdrop : ((a :: pre') ++ (core ++ post)).drop (patLen k) = core ++ post :=
            List.drop_left' heq
          rw [hdrop, hcq] at hbe
          have hcw : isWordCh c0 = false := by
            rw [show (c0 :: rest) ++ post = c0 :: (rest ++ post) from rfl] at hbe
            unfold boundaryEnd at hbe
            rw [Bool.not_eq_true'] at hbe
            exact hbe
          rw [hw0] at hcw
          exact absurd hcw (by simp)
        · apply List.mem_cons_of_mem
          have hdropeq : ((a :: pre') ++ (core ++ post)).drop (patLen k) =
              ((a :: pre').drop (patLen k)) ++ (core ++ post) := by
            rw [List.drop_append_eq_append_drop, Nat.sub_eq_zero_of_le (by omega),
              List.drop_zero]
          rw [show ((a :: (pre' ++ (core ++ post))) : List Char) =
            (a :: pre') ++ (core ++ post) from rfl, hdropeq]
          have hdne : (a :: pre').drop (patLen k) ≠ [] := by
            intro h0
            have hlen0 := congrArg List.length h0
            rw [List.length_drop, List.length_cons, List.length_nil] at hlen0
            have hgt' : patLen k < pre'.length + 1 := by
              rw [← List.length_cons a pre']
              exact hgt
            omega
          apply ih
          · have h0 : ((a :: pre') ++ (core ++ post)).length =
                pre'.length + 1 + (core.length + post.length) := by
              simp [List.length_append, List.length_cons]
              omega
            have hlen2 := hlen
            rw [h0] at hlen2
            show (((a :: pre').drop (patLen k)) ++ (core ++ post)).length ≤ f
            rw [List.length_append, List.length_drop, List.length_cons,
              List.length_append]
            have h7 := patLen_ge_seven k
            omega
          · exact hcore
          · intro hnil
            exact absurd hnil hdne
          · intro c hc
            apply hlast
            rw [← getLast?_drop_ne_nil hdne]
            exact hc
          · exact hpost
      · rw [if_neg hguard]
        apply ih
        · have hlen' : (pre' ++ (core ++ post)).length + 1 ≤ f + 1 := by
            simpa [List.length_cons] using hlen
          omega
        · exact hcore
        · intro hnil
          subst hnil
          apply hlast a
          simp
        · intro c hc
          apply hlast
          cases pre' with
          | nil => exact absurd hc (by simp)
          | cons b t =>
            rw [List.getLast?_cons_cons]
            exact hc
        · exact hpost

/-- Soundness of the scanner: every emitted match has the rule's shape. -/
lemma scanFuel_shape (k : PatRule) :
    ∀ (fuel : Nat) (prevW : Bool) (s m : List Char),
      m ∈ scanFuel k fuel prevW s → shapeMatch k m = true := by
  intro fuel
  induction fuel with
  | zero => intro prevW s m hm; simp [scanFuel] at hm
  | succ f ih =>
    intro prevW s m hm
    cases s with
    | nil => simp [scanFuel] at hm
    | cons c cs =>
      simp only [scanFuel] at hm
      by_cases hguard : (!prevW && matchesAt k (c :: cs)) = true
      · rw [if_pos hguard] at hm
        rcases List.mem_cons.mp hm with rfl | hm'
        · rw [Bool.and_eq_true] at hguard
          exact matchesAt_shape hguard.2
        · exact ih _ _ _ hm'
      · rw [if_neg hguard] at hm
        exact ih _ _ _ hm

/-- Every candidate the page-text extraction reports passes validation. -/
lemma extract_text_validates {m text : List Char}
    (hm : m ∈ extract_text_part_numbers text) : validate_part_number m = true := by
  unfold extract_text_part_numbers at hm
  rw [List.mem_flatten] at hm
  obtain ⟨l, hl, hml⟩ := hm
  rw [List.mem_map] at hl
  obtain ⟨k, -, rfl⟩ := hl
  rw [List.mem_filter] at hml
  exact hml.2

/-- C1 counterexample to the claim as stated: the text `12345-678`
contains the well-formed substring `2345-678` (it passes
`validate_part_number` and exceeds the minimum length), yet page-level
extraction reports no candidate at all, because the search patterns demand
word boundaries and the substring is preceded by the digit `1`. -/
theorem identifier_matcher_claim_cex :
    "12345-678".data = "1".data ++ ("2345-678".data ++ []) ∧
    7 ≤ ("2345-678".data).length ∧
    validate_part_number "2345-678".data = true ∧
    extract_text_part_numbers "12345-678".data = [] := by
  decide

/-- C1 (amended): for every text containing a substring that exactly
matches one of the three pattern shapes and is bordered by word boundaries
(no adjacent letter, digit or underscore on either side), page-level
extraction reports that substring among its candidates; every reported
candidate passes validation; a string rejected by validation is never
reported; and validation rejects every string shorter than 7 characters
and every string matching none of the anchored patterns. -/
theorem identifier_matcher_spec :
    (∀ (k : PatRule) (text pre core post : List Char),
      text = pre ++ (core ++ post) → shapeMatch k core = true →
      (∀ c, pre.getLast? = some c → isWordCh c = false) →
      boundaryEnd post = true →
      core ∈ extract_text_part_numbers text) ∧
    (∀ m text : List Char, m ∈ extract_text_part_numbers text →
      validate_part_number m = true) ∧
    (∀ s text : List Char, validate_part_number s = false →
      s ∉ extract_text_part_numbers text) ∧
    (∀ s : List Char, s.length < 7 → validate_part_number s = false) ∧
    (∀ s : List Char, anchoredMatch .dddd_ddd s = false →
      anchoredMatch .dddd_dd s = false → anchoredMatch .letter_dddd_ddd s = false →
      validate_part_number s = false) := by
  refine ⟨?_, fun m text hm => extract_text_validates hm, ?_, ?_, ?_⟩
  · intro k text pre core post htext hcore hlast hpost
    subst htext
    have hmem : core ∈ re_finditer k (pre ++ (core ++ post)) :=
      scanFuel_finds k (pre ++ (core ++ post)).length pre core post false le_rfl hcore
        (fun _ => rfl) hlast hpost
    unfold extract_text_part_numbers
    rw [List.mem_flatten]
    refine ⟨((re_finditer k (pre ++ (core ++ post))).map pyStrip).filter
      validate_part_number, ?_, ?_⟩
    · exact List.mem_map_of_mem _ (by cases k <;> simp [PDF_PART_NUMBER_PATTERNS])
    · rw [List.mem_filter]
      refine ⟨?_, shape_validate hcore⟩
      rw [List.mem_map]
      exact ⟨core, hmem, shape_strip hcore⟩
  · intro s text hval hmem
    rw [extract_text_validates hmem] at hval
    exact absurd hval (by simp)
  · intro s h
    unfold validate_part_number
    rw [if_pos (by simp [h])]
  · intro s h1 h2 h3
    unfold validate_part_number
    split
    · rfl
    · rw [h1, h2, h3]
      rfl

/-- Witness for `identifier_matcher_spec`: a boundary-delimited identifier
inside page text is reported, and a too-short string is rejected. -/
theorem identifier_matcher_spec_witness :
    "6000-487".data ∈ extract_text_part_numbers "Item 6000-487 Pump".data ∧
    validate_part_number "600-48".data = false :=
  ⟨identifier_matcher_spec.1 PatRule.dddd_ddd "Item 6000-487 Pump".data
      "Item ".data "6000-487".data " Pump".data (by decide) (by decide)
      (by intro c hc; cases hc; decide) (by decide),
    identifier_matcher_spec.2.2.2.1 "600-48".data (by decide)⟩

end Xtractor
